import Mathlib

/-!
Shallow embedding of the agri_llm Q&A generation pipeline
(src/qa_generation/core/: quality_validator.py, batch_manager.py,
gemini_client.py, qa_generator.py), with theorems settling the frozen
claims about it.

Modelling conventions:

* Python `str` is modelled by Lean `String` (both are sequences of Unicode
  code points; `len`, slicing and iteration in the source are all
  code-point based).  `str.lower` is modelled by ASCII lowercasing
  (`Char.toLower`); all concrete inputs in the theorems below are ASCII,
  where the two agree.
* Python floats: every float the validator computes is a multiple of 1/2,
  and the planner truncates `int(q * 0.20)`, `int(q * 0.15)`,
  `int(q * 0.10)` for 1 ≤ q ≤ 20 only; on those inputs binary floating
  point agrees exactly with rational arithmetic (the score comparisons
  against 6.0/7.5 are decided at distances ≥ 0.1 from the threshold, far
  above double rounding error), so floats are modelled as exact rationals.
* Python sets of strings are modelled as lists with membership insertion;
  dicts as association lists.
* `time.time()`/`time.sleep` are modelled by an explicit rational clock in
  the client state; a sleep advances the clock.
* Exceptions are modelled with `Except`/`Option` at the boundaries where
  the source raises or catches them.
-/

namespace AgriQA

/-! ### Python string primitives -/

/-- Python `str.strip()` whitespace set (ASCII): space, tab, newline,
carriage return, vertical tab, form feed. -/
def isPySpace (c : Char) : Bool :=
  c == ' ' || c == '\t' || c == '\n' || c == '\r' || c == '\x0b' || c == '\x0c'

/-- Characters matched by the regex class \s (ASCII range, same set). -/
def isReSpace (c : Char) : Bool := isPySpace c

/-- Characters matched by the regex class \w (ASCII range): letters,
digits and underscore. -/
def isWordChar (c : Char) : Bool := c.isAlphanum || c == '_'

def lstripChars (l : List Char) : List Char := l.dropWhile isPySpace

def rstripChars (l : List Char) : List Char := (l.reverse.dropWhile isPySpace).reverse

/-- Python `str.strip()`. -/
def pyStrip (s : String) : String := String.mk (rstripChars (lstripChars s.data))

/-- Python `str.rstrip()`. -/
def pyRstrip (s : String) : String := String.mk (rstripChars s.data)

/-- Python `str.lower()` (ASCII range). -/
def pyLower (s : String) : String := String.mk (s.data.map Char.toLower)

/-- Python `str.startswith` on code-point lists. -/
def startsWithChars : List Char → List Char → Bool
  | _, [] => true
  | [], _ :: _ => false
  | c :: cs, d :: ds => c == d && startsWithChars cs ds

/-- Python `str.endswith` on code-point lists. -/
def endsWithChars (l pat : List Char) : Bool :=
  startsWithChars l.reverse pat.reverse

/-- Python `sub in s` (substring containment). -/
def containsSeq (pat : List Char) : List Char → Bool
  | [] => startsWithChars [] pat
  | c :: rest => startsWithChars (c :: rest) pat || containsSeq pat rest

/-- One step of collapsing whitespace runs: `re.sub(r"\s+", " ", ·)`.
The flag records whether the previous character was whitespace. -/
def collapseWsAux : Bool → List Char → List Char
  | _, [] => []
  | prevWs, c :: rest =>
    if isReSpace c then
      if prevWs then collapseWsAux true rest else ' ' :: collapseWsAux true rest
    else c :: collapseWsAux false rest

/-- Maximal runs of \w characters, in order: the matches of
`re.findall(r"\b\w{5,}\b", ·)` are exactly the runs of length ≥ 5. -/
def wordRunsAux : List Char → List Char → List (List Char)
  | acc, [] => if acc.isEmpty then [] else [acc.reverse]
  | acc, c :: rest =>
    if isWordChar c then wordRunsAux (c :: acc) rest
    else if acc.isEmpty then wordRunsAux [] rest
    else acc.reverse :: wordRunsAux [] rest

def wordRuns (l : List Char) : List (List Char) := wordRunsAux [] l

/-! ### QualityValidator (src/qa_generation/core/quality_validator.py) -/

/-- The constructor parameters of `QualityValidator.__init__`. -/
structure ValidatorConfig where
  min_question_length : ℕ
  max_question_length : ℕ
  min_answer_length : ℕ
  max_answer_length : ℕ
  min_overall_score : ℚ
deriving DecidableEq

/-- The default parameter values of `QualityValidator.__init__`. -/
def defaultValidatorConfig : ValidatorConfig :=
  { min_question_length := 10, max_question_length := 300,
    min_answer_length := 20, max_answer_length := 1000,
    min_overall_score := 6 }

/-- `QualityValidator._normalize_text`: lowercase, drop `[^\w\s]`,
collapse whitespace runs, strip. -/
def normalizeText (s : String) : String :=
  let lowered := s.data.map Char.toLower
  let cleaned := lowered.filter (fun c => isWordChar c || isReSpace c)
  String.mk (rstripChars (lstripChars (collapseWsAux false cleaned)))

/-- `re.match(r"^What is .{1,15}\?$", s, re.IGNORECASE)` viewed as a total
predicate: s is case-insensitively "what is ", then 1–15 non-newline
characters, then a final question mark. -/
def matchWhatIs (l : List Char) : Bool :=
  let w := l.map Char.toLower
  startsWithChars w ("what is ".data) && decide (10 ≤ w.length) &&
    decide (w.length ≤ 24) && endsWithChars w ['?'] &&
    ((w.drop 8).dropLast.all (fun c => c != '\n'))

/-- `re.match(r"^(Yes|No)\.?$", s, re.IGNORECASE)` as a predicate. -/
def matchYesNo (l : List Char) : Bool :=
  let w := String.mk (l.map Char.toLower)
  w == "yes" || w == "no" || w == "yes." || w == "no."

/-- `re.match(r"^(True|False)\.?$", s, re.IGNORECASE)` as a predicate. -/
def matchTrueFalse (l : List Char) : Bool :=
  let w := String.mk (l.map Char.toLower)
  w == "true" || w == "false" || w == "true." || w == "false."

/-- `issues.append(msg)` guarded by a condition. -/
def boolIssue (b : Bool) (msg : String) : List String := if b then [msg] else []

/-- The distinct word tokens of length ≥ 5 of the lowercased text:
`set(re.findall(r"\b\w{5,}\b", text.lower()))`. -/
def words5 (s : String) : List (List Char) :=
  ((wordRuns (s.data.map Char.toLower)).filter (fun w => decide (5 ≤ w.length))).eraseDups

/-- `len(answer_words & source_words)` in `heuristic_checks`. -/
def overlapCount (answer source_text : String) : ℕ :=
  ((words5 answer).filter (fun w => (words5 source_text).contains w)).length

/-- The issue list built by `QualityValidator.heuristic_checks` before the
deduplication check, in source order: length bounds, format checks, the
identical-text check, the three vagueness patterns (each applied to the
question then the answer), and the incompleteness checks. -/
def issuesPre (cfg : ValidatorConfig) (question answer : String) : List String :=
  let qs := pyStrip question
  let sa := pyStrip answer
  boolIssue (decide (question.length < cfg.min_question_length))
      ("Question too short (" ++ Nat.repr question.length ++ " chars)") ++
  boolIssue (decide (cfg.max_question_length < question.length))
      ("Question too long (" ++ Nat.repr question.length ++ " chars)") ++
  boolIssue (decide (answer.length < cfg.min_answer_length))
      ("Answer too short (" ++ Nat.repr answer.length ++ " chars)") ++
  boolIssue (decide (cfg.max_answer_length < answer.length))
      ("Answer too long (" ++ Nat.repr answer.length ++ " chars)") ++
  boolIssue (!(endsWithChars qs.data ['?'])) "Question doesn\'t end with \'?\'" ++
  boolIssue (startsWithChars qs.data "Answer:".data || startsWithChars qs.data "Q:".data ||
      startsWithChars qs.data "A:".data) "Question has formatting artifacts" ++
  boolIssue (startsWithChars sa.data "Question:".data || startsWithChars sa.data "Q:".data ||
      startsWithChars sa.data "A:".data) "Answer has formatting artifacts" ++
  boolIssue (pyLower question == pyLower answer) "Question and answer are identical" ++
  boolIssue (matchWhatIs qs.data) "Question appears too vague" ++
  boolIssue (matchWhatIs sa.data) "Answer appears too simple" ++
  boolIssue (matchYesNo qs.data) "Question appears too vague" ++
  boolIssue (matchYesNo sa.data) "Answer appears too simple" ++
  boolIssue (matchTrueFalse qs.data) "Question appears too vague" ++
  boolIssue (matchTrueFalse sa.data) "Answer appears too simple" ++
  boolIssue (containsSeq "...".data question.data || question.data.contains '[' ||
      containsSeq "___".data question.data) "Question appears incomplete" ++
  boolIssue (containsSeq "...".data answer.data || containsSeq "[TBD]".data answer.data ||
      containsSeq "[TODO]".data answer.data) "Answer appears incomplete"

/-- The issue message of the deduplication check. -/
def dupIssue : String := "Duplicate or very similar question"

/-- The source-alignment issue of `heuristic_checks`: fewer than 3 distinct
significant words of the answer occur in the source text. -/
def issuesGround (answer source_text : String) : List String :=
  boolIssue (decide (overlapCount answer source_text < 3))
    "Answer may not be grounded in source text"

/-- `QualityValidator.heuristic_checks`.  Returns `((is_valid, issues),
seen_questions)` where `seen_questions` is the updated deduplication set
(`self.seen_questions` is mutated in place in the source). -/
def heuristic_checks (cfg : ValidatorConfig) (seen : List String)
    (question answer source_text : String) : (Bool × List String) × List String :=
  let nq := normalizeText question
  let dupPart := if seen.contains nq then [dupIssue] else []
  let seen' := if seen.contains nq then seen else nq :: seen
  let issues := issuesPre cfg question answer ++ dupPart ++ issuesGround answer source_text
  ((issues.isEmpty, issues), seen')

/-- `max(0, min(10, x))`. -/
def clamp10 (x : ℚ) : ℚ := max 0 (min 10 x)

/-- The `QualityScore` dataclass. -/
structure QualityScore where
  accuracy : ℚ
  clarity : ℚ
  completeness : ℚ
  relevance : ℚ
  specificity : ℚ
  overall : ℚ
  issues : List String
  recommendation : String
deriving DecidableEq

/-- The recommendation rule closing `score_quality`: "keep" when the
overall score is ≥ 7.5 with no issues; otherwise, when ≥ 6.0, "revise" if
there are issues and "keep" if not; otherwise "reject". -/
def recommendationOf (overall : ℚ) (issues : List String) : String :=
  if 7.5 ≤ overall ∧ issues.length = 0 then "keep"
  else if 6 ≤ overall then (if issues.isEmpty then "keep" else "revise")
  else "reject"

/-- The scoring part of `QualityValidator.score_quality`, as a function of
the heuristic result (`is_valid`, `issues`) and the raw texts. -/
def scoreFromIssues (question answer : String) (is_valid : Bool)
    (issues : List String) : QualityScore :=
  let n : ℚ := issues.length
  let accuracy1 : ℚ := if is_valid then 8 else 8 - n * 0.5
  let clarity1 : ℚ := if is_valid then 8 else 8 - n * 0.5
  let completeness1 : ℚ := if is_valid then 8 else 8 - n * 0.5
  let completeness2 : ℚ := if answer.length < 50 then completeness1 - 2 else completeness1
  let completeness3 : ℚ := if 500 < answer.length then completeness2 - 1 else completeness2
  let ql := pyLower question
  let specificity1 : ℚ :=
    if startsWithChars ql.data "what".data || startsWithChars ql.data "when".data ||
        startsWithChars ql.data "where".data || startsWithChars ql.data "who".data
    then 8 + 1 else 8
  let completeness4 : ℚ :=
    if startsWithChars ql.data "why".data || containsSeq "explain".data ql.data
    then completeness3 + 1 else completeness3
  let accuracy := clamp10 accuracy1
  let clarity := clamp10 clarity1
  let completeness := clamp10 completeness4
  let relevance := clamp10 8
  let specificity := clamp10 specificity1
  let overall := (accuracy + clarity + completeness + relevance + specificity) / 5
  let recommendation := recommendationOf overall issues
  { accuracy := accuracy, clarity := clarity, completeness := completeness,
    relevance := relevance, specificity := specificity, overall := overall,
    issues := issues, recommendation := recommendation }

/-- `QualityValidator.score_quality`: heuristic checks, score adjustment,
clamping, overall mean and the recommendation.  Returns the score and the
updated deduplication set. -/
def score_quality (cfg : ValidatorConfig) (seen : List String)
    (question answer source_text : String) : QualityScore × List String :=
  let hc := heuristic_checks cfg seen question answer source_text
  (scoreFromIssues question answer hc.1.1 hc.1.2, hc.2)

/-- An element of the `qa_pairs` argument of `filter_batch`:
`{"question": ..., "answer": ..., "chunk_id": ...}`. -/
structure RawPair where
  question : String
  answer : String
  chunk_id : String
deriving DecidableEq

/-- A pair with the `quality_score` metadata attached by `filter_batch`. -/
structure AssessedPair where
  question : String
  answer : String
  chunk_id : String
  quality_score : QualityScore
deriving DecidableEq

/-- `source_chunks.get(chunk_id, "")`. -/
def dictGet (m : List (String × String)) (k : String) : String :=
  match m.find? (fun p => p.1 == k) with
  | some p => p.2
  | none => ""

/-- `QualityValidator.filter_batch`: score each pair in order, attach the
quality metadata, and route it to the accepted list iff the recommendation
is "keep" and the overall score clears `min_overall_score`; otherwise to
the rejected list.  The deduplication set threads through the calls. -/
def filter_batch (cfg : ValidatorConfig) (seen : List String)
    (qa_pairs : List RawPair) (source_chunks : List (String × String)) :
    List AssessedPair × List AssessedPair × List String :=
  match qa_pairs with
  | [] => ([], [], seen)
  | p :: rest =>
    let source_text := dictGet source_chunks p.chunk_id
    let sq := score_quality cfg seen p.question p.answer source_text
    let ap : AssessedPair :=
      { question := p.question, answer := p.answer, chunk_id := p.chunk_id,
        quality_score := sq.1 }
    let tail := filter_batch cfg sq.2 rest source_chunks
    if sq.1.recommendation == "keep" && decide (cfg.min_overall_score ≤ sq.1.overall) then
      (ap :: tail.1, tail.2.1, tail.2.2)
    else
      (tail.1, ap :: tail.2.1, tail.2.2)

/-! ### Concrete validator inputs used in the theorems below -/

/-- A well-formed question except for the missing final question mark. -/
def qNoMark : String :=
  "What are the main benefits of crop rotation in sustainable farming"

/-- The same question with the question mark. -/
def qMark : String :=
  "What are the main benefits of crop rotation in sustainable farming?"

/-- A grounded answer for the crop-rotation question. -/
def aRotation : String :=
  "Crop rotation improves soil fertility, reduces pest pressure, and increases yields across multiple growing seasons."

/-- The placeholder quality score used only to give `AssessedPair` a default. -/
def emptyScore : QualityScore :=
  { accuracy := 0, clarity := 0, completeness := 0, relevance := 0,
    specificity := 0, overall := 0, issues := [], recommendation := "" }

def emptyAssessed : AssessedPair :=
  { question := "", answer := "", chunk_id := "", quality_score := emptyScore }

/-- The single raw pair of the concrete `filter_batch` run below. -/
def pairW : RawPair := { question := qMark, answer := aRotation, chunk_id := "c1" }

/-- The assessed pair the concrete `filter_batch` run accepts. -/
def acceptedW : AssessedPair :=
  (filter_batch defaultValidatorConfig [] [pairW] [("c1", aRotation)]).1.headD emptyAssessed

/-! ### BatchManager (src/qa_generation/core/batch_manager.py) -/

/-- The `question_distribution` dict of a `BatchConfig`: counts per single
API call, one per question category.  The factual reconciliation in
`create_batch_plan` can drive `factual` below zero, hence `ℤ`. -/
structure QuestionDistribution where
  factual : ℤ
  conceptual : ℤ
  procedural : ℤ
  comparative : ℤ
  scenario : ℤ
  analytical : ℤ
deriving DecidableEq

/-- `sum(distribution.values())`. -/
def QuestionDistribution.total (d : QuestionDistribution) : ℤ :=
  d.factual + d.conceptual + d.procedural + d.comparative + d.scenario + d.analytical

/-- The `BatchConfig` dataclass (the fields `create_batch_plan` fills). -/
structure BatchConfig where
  batch_id : ℕ
  target_qa_count : ℕ
  chunks_to_process : List String
  qa_per_chunk : ℕ
  passes_per_chunk : ℕ
  question_distribution : QuestionDistribution
  status : String := "pending"
deriving DecidableEq

/-- `BatchManager.MAX_QA_PER_CALL`. -/
def MAX_QA_PER_CALL : ℕ := 20

/-- The raw category distribution of `create_batch_plan`:
`max(1, int(qa_per_call * pct))` per category, with percentages
20/20/20/15/15/10.  For the reachable range 1 ≤ qa_per_call ≤ 20 the
float truncations `int(q*0.20)`, `int(q*0.15)`, `int(q*0.10)` equal the
rational floors `q/5`, `3*q/20`, `q/10` (checked exhaustively over the
range), so natural-number division is exact here. -/
def rawDistribution (qa_per_call : ℕ) : QuestionDistribution :=
  { factual := ((max 1 (qa_per_call / 5) : ℕ) : ℤ)
    conceptual := ((max 1 (qa_per_call / 5) : ℕ) : ℤ)
    procedural := ((max 1 (qa_per_call / 5) : ℕ) : ℤ)
    comparative := ((max 1 (3 * qa_per_call / 20) : ℕ) : ℤ)
    scenario := ((max 1 (3 * qa_per_call / 20) : ℕ) : ℤ)
    analytical := ((max 1 (qa_per_call / 10) : ℕ) : ℤ) }

/-- The reconciliation step of `create_batch_plan`: add any shortfall of
the distribution sum to the factual category, or trim any excess from it,
so the sum equals `qa_per_call` exactly. -/
def adjustedDistribution (qa_per_call : ℕ) : QuestionDistribution :=
  let d := rawDistribution qa_per_call
  let actual_sum := d.total
  if actual_sum < (qa_per_call : ℤ) then
    { d with factual := d.factual + ((qa_per_call : ℤ) - actual_sum) }
  else if (qa_per_call : ℤ) < actual_sum then
    { d with factual := d.factual - (actual_sum - (qa_per_call : ℤ)) }
  else d

/-- The config `create_batch_plan` builds for one non-empty chunk slice:
per-chunk target, per-call count capped at `MAX_QA_PER_CALL`, pass count
(rounded up, floored at 1, capped at 5), the recalculated actual per-chunk
count and the reconciled distribution. -/
def planConfig (batch_chunks : List String) (qa_per_batch batch_num : ℕ) : BatchConfig :=
  let total_qa_per_chunk := max 1 (qa_per_batch / batch_chunks.length)
  let qa_per_call := min MAX_QA_PER_CALL total_qa_per_chunk
  let passes_per_chunk :=
    min 5 (max 1 ((total_qa_per_chunk + qa_per_call - 1) / qa_per_call))
  let actual_qa_per_chunk := qa_per_call * passes_per_chunk
  { batch_id := batch_num
    target_qa_count := batch_chunks.length * actual_qa_per_chunk
    chunks_to_process := batch_chunks
    qa_per_chunk := qa_per_call
    passes_per_chunk := passes_per_chunk
    question_distribution := adjustedDistribution qa_per_call }

/-- One iteration of the `create_batch_plan` loop for `batch_num`:
slice the chunk range and build the config.  `none` models the
`ZeroDivisionError` raised when the batch's chunk slice is empty. -/
def planBatch (chunks : List String)
    (qa_per_batch chunks_per_batch num_batches batch_num : ℕ) : Option BatchConfig :=
  let start_idx := (batch_num - 1) * chunks_per_batch
  let end_idx := if batch_num < num_batches then start_idx + chunks_per_batch
    else chunks.length
  let batch_chunks := (chunks.drop start_idx).take (end_idx - start_idx)
  if batch_chunks.length = 0 then none
  else some (planConfig batch_chunks qa_per_batch batch_num)

/-- The `for batch_num in range(1, num_batches + 1)` loop: build each
batch's config, propagating failure. -/
def planLoop (chunks : List String) (qa_per_batch chunks_per_batch num_batches : ℕ) :
    List ℕ → Option (List BatchConfig)
  | [] => some []
  | bn :: rest =>
    match planBatch chunks qa_per_batch chunks_per_batch num_batches bn with
    | none => none
    | some cfg =>
      match planLoop chunks qa_per_batch chunks_per_batch num_batches rest with
      | none => none
      | some cfgs => some (cfg :: cfgs)

/-- `BatchManager.create_batch_plan`.  Chunks are modelled by their ids
(the source reads only `c["id"]` and the list length).  `none` models the
`ZeroDivisionError` on `num_batches = 0` (the divisions before the loop)
or on an empty chunk slice inside the loop. -/
def create_batch_plan (chunks : List String) (total_target num_batches : ℕ) :
    Option (List BatchConfig) :=
  if num_batches = 0 then none
  else
    let qa_per_batch := total_target / num_batches
    let chunks_per_batch := chunks.length / num_batches
    planLoop chunks qa_per_batch chunks_per_batch num_batches (List.range' 1 num_batches)

/-- The concrete two-chunk plan used as the C6 witness input. -/
def planC6 : List BatchConfig := (create_batch_plan ["a", "b"] 100 1).getD []

def zeroDistribution : QuestionDistribution :=
  { factual := 0, conceptual := 0, procedural := 0, comparative := 0,
    scenario := 0, analytical := 0 }

def emptyBatchConfig : BatchConfig :=
  { batch_id := 0, target_qa_count := 0, chunks_to_process := [],
    qa_per_chunk := 0, passes_per_chunk := 0,
    question_distribution := zeroDistribution }

def cfgC6 : BatchConfig := planC6.headD emptyBatchConfig

/-- The concrete one-chunk plan used as the C9 witness input (its only
config has `qa_per_chunk = 1` and `factual = -4`). -/
def planC9 : List BatchConfig := (create_batch_plan ["a"] 1 1).getD []

def cfgC9 : BatchConfig := planC9.headD emptyBatchConfig

/-! ### GeminiClient rate limiting (src/qa_generation/core/gemini_client.py) -/

/-- The mutable rate-limiting state of a `GeminiClient`, with an explicit
clock: `now` models `time.time()` and advances on every `time.sleep`. -/
structure RateState where
  now : ℚ
  request_timestamps : List ℚ
  tokens_used_this_minute : ℕ
  last_token_reset : ℚ
deriving DecidableEq

/-- `GeminiClient._check_rate_limits`: drop timestamps older than 60
seconds, block on the RPM limit (clearing the whole window after the
sleep), reset or block on the TPM counter, then record the request
timestamp.  A sleep advances `now`; the local `current_time` keeps its
entry value across sleeps exactly as in the source.  The `none` arm of the
`min` is reachable only with `rpm_limit = 0` (where the source would raise
`ValueError: min() arg is an empty sequence`). -/
def check_rate_limits (rpm_limit tpm_limit : ℕ) (estimated_tokens : ℕ)
    (s : RateState) : RateState :=
  let current_time := s.now
  let ts := s.request_timestamps.filter (fun t => decide (current_time - t < 60))
  let s1 : RateState :=
    if rpm_limit ≤ ts.length then
      match ts.min? with
      | some oldest =>
        let sleep_time := 60 - (current_time - oldest)
        if 0 < sleep_time then
          { s with now := s.now + sleep_time, request_timestamps := [] }
        else { s with request_timestamps := ts }
      | none => { s with request_timestamps := ts }
    else { s with request_timestamps := ts }
  let s2 : RateState :=
    if 60 ≤ current_time - s1.last_token_reset then
      { s1 with tokens_used_this_minute := 0, last_token_reset := current_time }
    else s1
  let s3 : RateState :=
    if tpm_limit < s2.tokens_used_this_minute + estimated_tokens then
      let sleep_time := 60 - (current_time - s2.last_token_reset)
      if 0 < sleep_time then
        { s2 with
            now := s2.now + sleep_time
            tokens_used_this_minute := 0
            last_token_reset := s2.now + sleep_time }
      else s2
    else s2
  { s3 with request_timestamps := s3.request_timestamps ++ [s3.now] }

/-- One `generate` call at the rate-limiting level: the caller arrives
`gap` seconds after the previous activity, `_check_rate_limits` runs (and
may sleep), the request goes out at the resulting clock value, and the
response's estimated token count is added to the minute counter after the
call returns. -/
def clientCall (rpm_limit tpm_limit estimated_tokens tokens_after : ℕ)
    (gap : ℚ) (s : RateState) : RateState × ℚ :=
  let s' := check_rate_limits rpm_limit tpm_limit estimated_tokens
    { s with now := s.now + gap }
  ({ s' with tokens_used_this_minute := s'.tokens_used_this_minute + tokens_after },
    s'.now)

/-- A sequence of `generate` calls with the given inter-arrival gaps;
returns the final state and the request issue times in order. -/
def clientCalls (rpm_limit tpm_limit estimated_tokens tokens_after : ℕ) :
    RateState → List ℚ → RateState × List ℚ
  | s, [] => (s, [])
  | s, gap :: gaps =>
    let r := clientCall rpm_limit tpm_limit estimated_tokens tokens_after gap s
    let rest := clientCalls rpm_limit tpm_limit estimated_tokens tokens_after r.1 gaps
    (rest.1, r.2 :: rest.2)

/-- How many issued requests fall in the sliding window [t, t + 60). -/
def countInWindow (times : List ℚ) (t : ℚ) : ℕ :=
  (times.filter (fun x => decide (t ≤ x) && decide (x < t + 60))).length

/-- The client state at construction time. -/
def initialRateState : RateState :=
  { now := 0, request_timestamps := [], tokens_used_this_minute := 0,
    last_token_reset := 0 }

/-! ### QAGenerator orchestration (src/qa_generation/core/qa_generator.py) -/

/-- The tuple `_process_single_chunk` returns on success:
`(qa_pairs, accepted, rejected, api_calls)`. -/
structure ChunkResult where
  qa_pairs : List RawPair
  accepted : List AssessedPair
  rejected : List AssessedPair
  api_calls : ℕ
deriving DecidableEq

/-- `QAGenerator._process_single_chunk`: the chunk's generation/validation
path is modelled as an `Except`-valued computation; any error it raises is
caught at the chunk boundary and turned into `None` (the source logs it
and returns `None`; nothing else happens). -/
def process_single_chunk (work : Except String ChunkResult) : Option ChunkResult :=
  match work with
  | .ok r => some r
  | .error _ => none

/-- The per-run counters of `generate_batch` (the `stats` entries the
collection loop updates). -/
structure RunStats where
  qa_generated : ℕ
  qa_filtered : ℕ
  qa_rejected : ℕ
  api_calls : ℕ
  chunks_processed : ℕ
  errors : ℕ
deriving DecidableEq

/-- One `_save_checkpoint` event: the processed-chunk set and stats at the
moment the checkpoint was written. -/
structure CheckpointSave where
  processed : List String
  stats : RunStats
deriving DecidableEq

/-- The loop state of `generate_batch`: the stats, the processed-chunk
set, and the checkpoints persisted so far. -/
structure BatchRunState where
  stats : RunStats
  processed : List String
  checkpoints : List CheckpointSave
deriving DecidableEq

/-- Python `set.add` on the processed-chunk set. -/
def insertChunk (l : List String) (c : String) : List String :=
  if l.contains c then l else l ++ [c]

/-- The body of `generate_batch`'s result-collection loop for one
completed future.  On `None` (a chunk whose processing raised and was
caught inside `_process_single_chunk`) nothing changes — `if result:` is
false, so in particular the `errors` tally is *not* incremented.  On a
result, the counters grow, the chunk joins the processed set, and every
10th completed chunk persists a checkpoint. -/
def collectResult (st : BatchRunState) (chunk_id : String)
    (result : Option ChunkResult) : BatchRunState :=
  match result with
  | none => st
  | some r =>
    let stats' : RunStats :=
      { st.stats with
          qa_generated := st.stats.qa_generated + r.qa_pairs.length
          qa_filtered := st.stats.qa_filtered + r.accepted.length
          qa_rejected := st.stats.qa_rejected + r.rejected.length
          api_calls := st.stats.api_calls + r.api_calls
          chunks_processed := st.stats.chunks_processed + 1 }
    let processed' := insertChunk st.processed chunk_id
    if stats'.chunks_processed % 10 = 0 then
      { stats := stats', processed := processed',
        checkpoints := st.checkpoints ++ [{ processed := processed', stats := stats' }] }
    else
      { stats := stats', processed := processed', checkpoints := st.checkpoints }

/-- The state `generate_batch` starts its loop with on a resumed run: the
checkpoint's processed set seeds both the set and `chunks_processed`; all
other counters start at zero. -/
def initialRunState (resumedProcessed : List String) : BatchRunState :=
  { stats := { qa_generated := 0, qa_filtered := 0, qa_rejected := 0,
               api_calls := 0, chunks_processed := resumedProcessed.length,
               errors := 0 }
    processed := resumedProcessed
    checkpoints := [] }

/-- `QAGenerator.generate_batch` at the orchestration level: fold the
collection loop over the per-chunk outcomes (listed in completion order),
then return the final state together with the metadata/statistics record
written to `metadata.json` at completion.  No checkpoint is written after
the loop: the end-of-batch persistence is the metadata record alone. -/
def generate_batch (resumedProcessed : List String)
    (chunk_work : List (String × Except String ChunkResult)) :
    BatchRunState × RunStats :=
  let final := chunk_work.foldl
    (fun st pr => collectResult st pr.1 (process_single_chunk pr.2))
    (initialRunState resumedProcessed)
  (final, final.stats)

/-- The chunk count recorded by the most recent checkpoint save, or the
resumed count when no checkpoint was saved in this run. -/
def lastCheckpointCount (c0 : ℕ) (st : BatchRunState) : ℕ :=
  match st.checkpoints.getLast? with
  | some cp => cp.stats.chunks_processed
  | none => c0

/-! ### JSON values and a model of `json.loads`
(used by `GeminiClient.generate_qa_batch` and its repair tiers) -/

inductive Json where
  | null
  | bool (b : Bool)
  | num (q : ℚ)
  | str (s : String)
  | arr (elems : List Json)
  | obj (fields : List (String × Json))

/-- JSON whitespace accepted between tokens by `json.loads`. -/
def isJsonWs (c : Char) : Bool :=
  c == ' ' || c == '\t' || c == '\n' || c == '\r'

def skipWs (l : List Char) : List Char := l.dropWhile isJsonWs

def hexVal (c : Char) : Option ℕ :=
  if c.isDigit then some (c.toNat - 48)
  else if 'a' ≤ c ∧ c ≤ 'f' then some (c.toNat - 87)
  else if 'A' ≤ c ∧ c ≤ 'F' then some (c.toNat - 55)
  else none

/-- The single-character JSON string escapes. -/
def escChar (c : Char) : Option Char :=
  if c = '"' then some '"'
  else if c = '\\' then some '\\'
  else if c = '/' then some '/'
  else if c = 'b' then some '\x08'
  else if c = 'f' then some '\x0c'
  else if c = 'n' then some '\n'
  else if c = 'r' then some '\r'
  else if c = 't' then some '\t'
  else none

/-- Parse the body of a JSON string literal (the opening quote already
consumed): returns the decoded characters and the remainder after the
closing quote.  Control characters are rejected (`json.loads` is strict);
the `\uXXXX` escape decodes to the code point (surrogate pairing is not
modelled; no input below uses it). -/
def parseJString : List Char → Option (List Char × List Char)
  | [] => none
  | c :: rest =>
    if c = '"' then some ([], rest)
    else if c = '\\' then
      match rest with
      | [] => none
      | e :: rest2 =>
        if e = 'u' then
          match rest2 with
          | h1 :: h2 :: h3 :: h4 :: rest3 =>
            match hexVal h1, hexVal h2, hexVal h3, hexVal h4 with
            | some a, some b, some cc, some d =>
              (parseJString rest3).map
                (fun pr => (Char.ofNat (((a * 16 + b) * 16 + cc) * 16 + d) :: pr.1, pr.2))
            | _, _, _, _ => none
          | _ => none
        else
          match escChar e with
          | some d => (parseJString rest2).map (fun pr => (d :: pr.1, pr.2))
          | none => none
    else if c.val < 32 then none
    else (parseJString rest).map (fun pr => (c :: pr.1, pr.2))

def digitsToNat (l : List Char) : ℕ :=
  l.foldl (fun acc c => acc * 10 + (c.toNat - 48)) 0

/-- Parse a JSON number after an optional leading minus sign, per the
JSON grammar `(0|[1-9][0-9]*)(\.[0-9]+)?([eE][+-]?[0-9]+)?`. -/
def parseNumberTail (l1 : List Char) : Option (ℚ × List Char) :=
  let ds := l1.takeWhile Char.isDigit
  let l2 := l1.dropWhile Char.isDigit
  if ds.isEmpty then none
  else if 2 ≤ ds.length ∧ ds.headD '0' = '0' then none
  else
    let ip : ℚ := (digitsToNat ds : ℕ)
    let afterFrac : Option (ℚ × List Char) :=
      match l2 with
      | '.' :: r =>
        let fs := r.takeWhile Char.isDigit
        let r2 := r.dropWhile Char.isDigit
        if fs.isEmpty then none
        else some (ip + (digitsToNat fs : ℚ) / ((10 : ℚ) ^ fs.length), r2)
      | _ => some (ip, l2)
    match afterFrac with
    | none => none
    | some (v, l3) =>
      match l3 with
      | e :: r =>
        if e = 'e' ∨ e = 'E' then
          let sgn : ℤ := match r with
            | '-' :: _ => -1
            | _ => 1
          let r1 := match r with
            | '+' :: rr => rr
            | '-' :: rr => rr
            | _ => r
          let es := r1.takeWhile Char.isDigit
          let r2 := r1.dropWhile Char.isDigit
          if es.isEmpty then none
          else some (v * (10 : ℚ) ^ (sgn * (digitsToNat es : ℤ)), r2)
        else some (v, l3)
      | [] => some (v, [])

def parseNumber (l : List Char) : Option (ℚ × List Char) :=
  match l with
  | '-' :: r => (parseNumberTail r).map (fun pr => (-pr.1, pr.2))
  | _ => parseNumberTail l

mutual

/-- Parse one JSON value (leading whitespace already skipped).  The fuel
only bounds recursion depth; `jsonParse` supplies enough for any input
(two units per consumed character suffice). -/
def parseValue : ℕ → List Char → Option (Json × List Char)
  | 0, _ => none
  | _ + 1, [] => none
  | fuel + 1, c :: rest =>
    if c = '"' then
      (parseJString rest).map (fun pr => (Json.str (String.mk pr.1), pr.2))
    else if c = '[' then
      match skipWs rest with
      | ']' :: r2 => some (Json.arr [], r2)
      | r2 => (parseArrItems fuel r2).map (fun pr => (Json.arr pr.1, pr.2))
    else if c = '\x7b' then
      match skipWs rest with
      | '\x7d' :: r2 => some (Json.obj [], r2)
      | r2 => (parseObjItems fuel r2).map (fun pr => (Json.obj pr.1, pr.2))
    else if c = 't' then
      match rest with
      | 'r' :: 'u' :: 'e' :: r2 => some (Json.bool true, r2)
      | _ => none
    else if c = 'f' then
      match rest with
      | 'a' :: 'l' :: 's' :: 'e' :: r2 => some (Json.bool false, r2)
      | _ => none
    else if c = 'n' then
      match rest with
      | 'u' :: 'l' :: 'l' :: r2 => some (Json.null, r2)
      | _ => none
    else if c = '-' ∨ c.isDigit then
      (parseNumber (c :: rest)).map (fun pr => (Json.num pr.1, pr.2))
    else none

/-- Parse the elements of a non-empty JSON array up to and including the
closing bracket. -/
def parseArrItems : ℕ → List Char → Option (List Json × List Char)
  | 0, _ => none
  | fuel + 1, l =>
    match parseValue fuel l with
    | none => none
    | some (v, r) =>
      match skipWs r with
      | ',' :: r2 =>
        match parseArrItems fuel (skipWs r2) with
        | none => none
        | some (vs, r3) => some (v :: vs, r3)
      | ']' :: r2 => some ([v], r2)
      | _ => none

/-- Parse the members of a non-empty JSON object up to and including the
closing brace. -/
def parseObjItems : ℕ → List Char → Option (List (String × Json) × List Char)
  | 0, _ => none
  | fuel + 1, l =>
    match l with
    | '"' :: r =>
      match parseJString r with
      | none => none
      | some (k, r2) =>
        match skipWs r2 with
        | ':' :: r3 =>
          match parseValue fuel (skipWs r3) with
          | none => none
          | some (v, r4) =>
            match skipWs r4 with
            | ',' :: r5 =>
              match parseObjItems fuel (skipWs r5) with
              | none => none
              | some (kvs, r6) => some ((String.mk k, v) :: kvs, r6)
            | '\x7d' :: r5 => some ([(String.mk k, v)], r5)
            | _ => none
        | _ => none
    | _ => none

end

/-- The model of `json.loads`: parse one value and require the rest of
the input to be whitespace.  Any consecutive pair of fuel decrements
consumes at least one character, so `2 * length + 2` fuel never runs out
on a parseable input. -/
def jsonParse (s : String) : Option Json :=
  let l := skipWs s.data
  match parseValue (2 * l.length + 2) l with
  | some (v, r) => if (skipWs r).isEmpty then some v else none
  | none => none

/-! ### GeminiClient JSON repair and extraction
(src/qa_generation/core/gemini_client.py) -/

/-- `re.sub(r",\s*CLOSE", "CLOSE", text)` for a closing character: each
comma followed by optional whitespace and the closer collapses to the
closer alone; scanning resumes after the replacement (the greedy `\s*`
cannot backtrack into a successful match, so matching is
deterministic). -/
def commaSub (close : Char) : List Char → List Char
  | [] => []
  | c :: rest =>
    if c = ',' ∧ ((rest.dropWhile isReSpace).headD ' ') = close then
      close :: commaSub close (rest.dropWhile isReSpace).tail
    else c :: commaSub close rest
termination_by l => l.length
decreasing_by
  all_goals simp_wf
  · have h : ∀ l : List Char, (List.dropWhile isReSpace l).length ≤ l.length := by
      intro l
      induction l with
      | nil => simp
      | cons x xs ih =>
        rw [List.dropWhile_cons]
        split
        · exact le_trans ih (Nat.le_succ _)
        · simp
    have h2 := h rest
    omega

/-- The state of `_repair_json`'s character scan: bracket and brace
depth, string-literal and escape flags, the current index, and the index
one past the last structurally complete element (`0` encodes the
source's initial `-1`; recorded indices are always ≥ 1). -/
structure ScanSt where
  bracket_count : ℤ
  brace_count : ℤ
  in_string : Bool
  escape_next : Bool
  idx : ℕ
  last_complete : ℕ
deriving DecidableEq

/-- One step of `_repair_json`'s scan loop. -/
def scanStep (st : ScanSt) (c : Char) : ScanSt :=
  if st.escape_next then { st with escape_next := false, idx := st.idx + 1 }
  else if c = '\\' then { st with escape_next := true, idx := st.idx + 1 }
  else if c = '"' then { st with in_string := !st.in_string, idx := st.idx + 1 }
  else if st.in_string then { st with idx := st.idx + 1 }
  else if c = '[' then { st with bracket_count := st.bracket_count + 1, idx := st.idx + 1 }
  else if c = ']' then
    { st with
        bracket_count := st.bracket_count - 1
        idx := st.idx + 1
        last_complete := if st.bracket_count - 1 = 0 then st.idx + 1 else st.last_complete }
  else if c = '\x7b' then { st with brace_count := st.brace_count + 1, idx := st.idx + 1 }
  else if c = '\x7d' then
    { st with
        brace_count := st.brace_count - 1
        idx := st.idx + 1
        last_complete := if st.brace_count - 1 = 0 ∧ st.bracket_count = 1 then st.idx + 1
          else st.last_complete }
  else { st with idx := st.idx + 1 }

def initScan : ScanSt :=
  { bracket_count := 0, brace_count := 0, in_string := false, escape_next := false,
    idx := 0, last_complete := 0 }

def scanChars (l : List Char) : ScanSt := l.foldl scanStep initScan

/-- Python `str.rstrip(",")`. -/
def rstripComma (l : List Char) : List Char :=
  (l.reverse.dropWhile (fun c => c == ',')).reverse

/-- `GeminiClient._repair_json` on code points: strip, collapse trailing
commas before `]` and `}`, scan for the last structurally complete
element, and if brackets or braces are left open, truncate to that
element and close the array. -/
def repairChars (l0 : List Char) : List Char :=
  let l1 := rstripChars (lstripChars l0)
  let l2 := commaSub ']' l1
  let l3 := commaSub '\x7d' l2
  let st := scanChars l3
  if 0 < st.bracket_count ∨ 0 < st.brace_count then
    if 0 < st.last_complete then
      let t := l3.take st.last_complete
      if endsWithChars (rstripChars t) [']'] then t
      else rstripComma (rstripChars t) ++ [']']
    else l3
  else l3

def repair_json (s : String) : String := String.mk (repairChars s.data)

def reWsSkip (l : List Char) : List Char := l.dropWhile isReSpace

/-- Match a literal character sequence, returning the remainder. -/
def expectChars : List Char → List Char → Option (List Char)
  | l, [] => some l
  | [], _ :: _ => none
  | c :: cs, d :: ds => if c = d then expectChars cs ds else none

/-- The regex of `_extract_partial_qa_pairs`,
`\{\s*"question"\s*:\s*"[^"]*"\s*,\s*"answer"\s*:\s*"[^"]*"[^}]*\}`, as a
deterministic matcher (every quantified class is disjoint from what must
follow it, so no backtracking arises): returns the remainder after a
match at the head of the input. -/
def matchQaObj (l : List Char) : Option (List Char) :=
  match l with
  | '\x7b' :: r0 =>
    match expectChars (reWsSkip r0) "\"question\"".data with
    | none => none
    | some r2 =>
      match reWsSkip r2 with
      | ':' :: r4 =>
        match reWsSkip r4 with
        | '"' :: r6 =>
          match r6.dropWhile (fun c => !(c == '"')) with
          | '"' :: r8 =>
            match reWsSkip r8 with
            | ',' :: r10 =>
              match expectChars (reWsSkip r10) "\"answer\"".data with
              | none => none
              | some r12 =>
                match reWsSkip r12 with
                | ':' :: r14 =>
                  match reWsSkip r14 with
                  | '"' :: r16 =>
                    match r16.dropWhile (fun c => !(c == '"')) with
                    | '"' :: r18 =>
                      match r18.dropWhile (fun c => !(c == '\x7d')) with
                      | '\x7d' :: r20 => some r20
                      | _ => none
                    | _ => none
                  | _ => none
                | _ => none
            | _ => none
          | _ => none
        | _ => none
      | _ => none
  | _ => none

/-- `re.findall` for the Q&A-object pattern: try a match at every
position, left to right, non-overlapping.  Each iteration consumes at
least one character, so `length + 1` fuel suffices. -/
def findQaMatches : ℕ → List Char → List (List Char)
  | 0, _ => []
  | _ + 1, [] => []
  | fuel + 1, c :: rest =>
    match matchQaObj (c :: rest) with
    | some r =>
      (c :: rest).take ((c :: rest).length - r.length) :: findQaMatches fuel r
    | none => findQaMatches fuel rest

/-- `GeminiClient._extract_partial_qa_pairs`: parse each regex match as
JSON, keep the objects carrying both a `question` and an `answer` key,
drop anything that fails to parse. -/
def extract_partial_qa_pairs (s : String) : List Json :=
  (findQaMatches (s.data.length + 1) s.data).filterMap (fun m =>
    match jsonParse (String.mk m) with
    | some (Json.obj fields) =>
      if fields.any (fun kv => kv.1 == "question") &&
          fields.any (fun kv => kv.1 == "answer") then
        some (Json.obj fields)
      else none
    | _ => none)

/-- The outcome of one underlying `model.generate_content` attempt. -/
inductive GenAttempt where
  | ok (text : String)
  | fail
deriving DecidableEq

/-- `GeminiClient.generate` under its tenacity retry decorator
(`stop_after_attempt(3)`): up to three attempts; the first success
returns its text, and after the third failure the exception propagates to
the caller (`Except.error`).  The oracle gives the outcome of attempt i;
rate limiting and usage counters are modelled separately
(`check_rate_limits`) and do not affect the retry flow. -/
def generateWithRetry (oracle : ℕ → GenAttempt) : Except Unit String :=
  match oracle 0 with
  | .ok t => .ok t
  | .fail =>
    match oracle 1 with
    | .ok t => .ok t
    | .fail =>
      match oracle 2 with
      | .ok t => .ok t
      | .fail => .error ()

/-- The parsing cascade of `generate_qa_batch` on a non-empty response:
strip, remove markdown code fences, strip again, then try the direct
parse, the repaired parse, and finally regex extraction; an empty list
results when every tier yields nothing. -/
def parseTiers (response_text : String) : List Json :=
  let t1 := pyStrip response_text
  let t2 := if startsWithChars t1.data "```json".data then String.mk (t1.data.drop 7) else t1
  let t3 := if startsWithChars t2.data "```".data then String.mk (t2.data.drop 3) else t2
  let t4 := if endsWithChars t3.data "```".data then
    String.mk (t3.data.take (t3.data.length - 3)) else t3
  let t := pyStrip t4
  match jsonParse t with
  | some (Json.arr xs) => xs
  | _ =>
    match jsonParse (repair_json t) with
    | some (Json.arr xs) => xs
    | _ => extract_partial_qa_pairs t

/-- `GeminiClient.generate_qa_batch`: call `generate`; any exception
(including the retry-exhausted failure) is caught and yields `[]`; an
empty response also yields `[]`; otherwise run the parsing cascade. -/
def generate_qa_batch (oracle : ℕ → GenAttempt) : List Json :=
  match generateWithRetry oracle with
  | .error _ => []
  | .ok response_text =>
    if response_text == "" then []
    else parseTiers response_text

/-! ### The truncated-array input class of the repair claim -/

/-- Characters that interact with neither the JSON lexer nor the repair
scan nor the comma substitutions: not a quote, backslash, bracket, brace
or comma, not whitespace, not a control character. -/
def plainChar (c : Char) : Bool :=
  decide (c ≠ '"' ∧ c ≠ '\\' ∧ c ≠ '[' ∧ c ≠ ']' ∧ c ≠ '\x7b' ∧ c ≠ '\x7d' ∧
    c ≠ ',' ∧ isReSpace c = false ∧ 32 ≤ c.val)

def plainStr (s : String) : Bool := s.data.all plainChar

/-- One rendered object field, `"key":"value"`. -/
def renderField (kv : String × String) : List Char :=
  '"' :: (kv.1.data ++ '"' :: ':' :: '"' :: (kv.2.data ++ ['"']))

/-- The comma-joined field list of a rendered object. -/
def renderFieldsBody : List (String × String) → List Char
  | [] => []
  | [kv] => renderField kv
  | kv :: kv2 :: rest => renderField kv ++ ',' :: renderFieldsBody (kv2 :: rest)

/-- A rendered flat JSON object with string keys and values. -/
def renderObjChars (fs : List (String × String)) : List Char :=
  '\x7b' :: (renderFieldsBody fs ++ ['\x7d'])

/-- The comma-joined rendered objects of an array. -/
def renderItems : List (List (String × String)) → List Char
  | [] => []
  | [o] => renderObjChars o
  | o :: o2 :: rest => renderObjChars o ++ ',' :: renderItems (o2 :: rest)

/-- A complete rendered array of flat objects. -/
def renderArrChars (objs : List (List (String × String))) : List Char :=
  '[' :: (renderItems objs ++ [']'])

/-- A JSON array truncated in the middle of an object: the fully closed
objects, then a fragment of the next object's rendering in place of the
rest. -/
def truncatedArrayChars (objs : List (List (String × String))) (frag : List Char) :
    List Char :=
  '[' :: (match objs with
    | [] => frag
    | _ :: _ => renderItems objs ++ ',' :: frag)

/-- The JSON value a rendered flat object denotes. -/
def objJson (fs : List (String × String)) : Json :=
  Json.obj (fs.map (fun kv => (kv.1, Json.str kv.2)))

/-- Characters that leave the repair scan's counters untouched wherever
they occur. -/
def neutralChar (c : Char) : Bool :=
  decide (c ≠ '\\' ∧ c ≠ '"' ∧ c ≠ '[' ∧ c ≠ ']' ∧ c ≠ '\x7b' ∧ c ≠ '\x7d')

/-! ### The comma substitutions are the identity on the rendered class -/

/-- Every comma of the text is immediately followed by a quote or an
opening brace, or ends the text. -/
def goodSeq : List Char → Bool
  | [] => true
  | [_] => true
  | c :: d :: rest => (!(c == ',') || (d == '"' || d == '\x7b')) && goodSeq (d :: rest)

/-! ## Theorems about the embedded pipeline -/

/-! ### Validator lemmas -/

@[gcongr] lemma clamp10_mono {x y : ℚ} (h : x ≤ y) : clamp10 x ≤ clamp10 y :=
  max_le_max le_rfl (min_le_min le_rfl h)

lemma deduction_eq (issues : List String) :
    (if issues.isEmpty then (8 : ℚ) else 8 - (issues.length : ℚ) * 0.5)
      = 8 - (issues.length : ℚ) * 0.5 := by
  cases issues <;> norm_num

/-- Fewer detected issues never lower the overall score: the score part of
`score_quality` is antitone in the issue count. -/
lemma scoreFromIssues_overall_anti (question answer : String) {is1 is2 : List String}
    (h : is1.length ≤ is2.length) :
    (scoreFromIssues question answer is2.isEmpty is2).overall ≤
      (scoreFromIssues question answer is1.isEmpty is1).overall := by
  have hn : ((is1.length : ℚ)) ≤ (is2.length : ℚ) := by exact_mod_cast h
  simp only [scoreFromIssues, deduction_eq]
  by_cases h50 : answer.length < 50 <;>
    by_cases h500 : 500 < answer.length <;>
      rcases Bool.eq_false_or_eq_true (startsWithChars (pyLower question).data "why".data ||
        containsSeq "explain".data (pyLower question).data) with hwhy | hwhy <;>
    simp only [h50, h500, hwhy, Bool.false_eq_true, if_true, if_false,
      ite_true, ite_false] <;>
    gcongr

lemma recommendationOf_keep (o : ℚ) (issues : List String) :
    recommendationOf o issues = "keep" ↔ 6 ≤ o ∧ issues = [] := by
  unfold recommendationOf
  split_ifs with h1 h2 h3
  · exact iff_of_true rfl ⟨by linarith [h1.1], List.length_eq_zero.mp h1.2⟩
  · exact iff_of_true rfl ⟨h2, List.isEmpty_iff.mp h3⟩
  · refine iff_of_false (by decide) ?_
    rintro ⟨-, rfl⟩
    exact h3 rfl
  · refine iff_of_false (by decide) ?_
    rintro ⟨h6, -⟩
    exact h2 h6

lemma recommendationOf_revise (o : ℚ) (issues : List String) :
    recommendationOf o issues = "revise" ↔ 6 ≤ o ∧ issues ≠ [] := by
  unfold recommendationOf
  split_ifs with h1 h2 h3
  · refine iff_of_false (by decide) ?_
    rintro ⟨-, hne⟩
    exact hne (List.length_eq_zero.mp h1.2)
  · refine iff_of_false (by decide) ?_
    rintro ⟨-, hne⟩
    exact hne (List.isEmpty_iff.mp h3)
  · refine iff_of_true rfl ⟨h2, ?_⟩
    intro hnil
    rw [hnil] at h3
    exact h3 rfl
  · refine iff_of_false (by decide) ?_
    rintro ⟨h6, -⟩
    exact h2 h6

lemma recommendationOf_reject (o : ℚ) (issues : List String) :
    recommendationOf o issues = "reject" ↔ o < 6 := by
  unfold recommendationOf
  split_ifs with h1 h2 h3
  · exact iff_of_false (by decide) (fun hlt => absurd h1.1 (by linarith))
  · exact iff_of_false (by decide) (fun hlt => absurd h2 (by linarith))
  · exact iff_of_false (by decide) (fun hlt => absurd h2 (by linarith))
  · exact iff_of_true rfl (lt_of_not_le h2)

lemma score_quality_fst (cfg : ValidatorConfig) (seen : List String)
    (question answer source_text : String) :
    (score_quality cfg seen question answer source_text).1 =
      scoreFromIssues question answer
        (heuristic_checks cfg seen question answer source_text).1.1
        (heuristic_checks cfg seen question answer source_text).1.2 := rfl

lemma heuristic_checks_valid (cfg : ValidatorConfig) (seen : List String)
    (question answer source_text : String) :
    (heuristic_checks cfg seen question answer source_text).1.1 =
      ((heuristic_checks cfg seen question answer source_text).1.2).isEmpty := by
  simp only [heuristic_checks]

lemma score_quality_issues (cfg : ValidatorConfig) (seen : List String)
    (question answer source_text : String) :
    (score_quality cfg seen question answer source_text).1.issues =
      (heuristic_checks cfg seen question answer source_text).1.2 := rfl

lemma score_quality_recommendation (cfg : ValidatorConfig) (seen : List String)
    (question answer source_text : String) :
    (score_quality cfg seen question answer source_text).1.recommendation =
      recommendationOf (score_quality cfg seen question answer source_text).1.overall
        (score_quality cfg seen question answer source_text).1.issues := rfl

/-! ### Claim theorems: the validator -/

/-- C1.  Every pair `filter_batch` routes to the accepted list has a
quality assessment recommending "keep" with an overall score at or above
the configured `min_overall_score`; every pair failing either condition is
routed to the rejected list; together they exhaust the input. -/
theorem filter_batch_accepts_only_keep_above_threshold
    (cfg : ValidatorConfig) (seen : List String)
    (qa_pairs : List RawPair) (source_chunks : List (String × String)) :
    (∀ ap ∈ (filter_batch cfg seen qa_pairs source_chunks).1,
        ap.quality_score.recommendation = "keep" ∧
        cfg.min_overall_score ≤ ap.quality_score.overall) ∧
    (∀ ap ∈ (filter_batch cfg seen qa_pairs source_chunks).2.1,
        ¬(ap.quality_score.recommendation = "keep" ∧
          cfg.min_overall_score ≤ ap.quality_score.overall)) ∧
    (filter_batch cfg seen qa_pairs source_chunks).1.length +
        (filter_batch cfg seen qa_pairs source_chunks).2.1.length = qa_pairs.length := by
  induction qa_pairs generalizing seen with
  | nil => simp [filter_batch]
  | cons p rest ih =>
    obtain ⟨ih1, ih2, ih3⟩ :=
      ih (score_quality cfg seen p.question p.answer (dictGet source_chunks p.chunk_id)).2
    simp only [filter_batch]
    by_cases hcond :
        ((score_quality cfg seen p.question p.answer
            (dictGet source_chunks p.chunk_id)).1.recommendation == "keep" &&
          decide (cfg.min_overall_score ≤
            (score_quality cfg seen p.question p.answer
              (dictGet source_chunks p.chunk_id)).1.overall)) = true
    · rw [if_pos hcond]
      obtain ⟨hk, hle⟩ := Bool.and_eq_true_iff.mp hcond
      refine ⟨?_, ih2, ?_⟩
      · intro ap hap
        rcases List.mem_cons.mp hap with rfl | hap
        · exact ⟨eq_of_beq hk, of_decide_eq_true hle⟩
        · exact ih1 ap hap
      · show List.length (_ :: _) + _ = List.length (_ :: _)
        simp only [List.length_cons]
        omega
    · rw [if_neg hcond]
      refine ⟨ih1, ?_, ?_⟩
      · intro ap hap
        rcases List.mem_cons.mp hap with rfl | hap
        · intro hpair
          apply hcond
          rw [Bool.and_eq_true_iff]
          exact ⟨beq_iff_eq.mpr hpair.1, decide_eq_true hpair.2⟩
        · exact ih2 ap hap
      · show _ + List.length (_ :: _) = List.length (_ :: _)
        simp only [List.length_cons]
        omega

set_option maxHeartbeats 4000000 in
set_option maxRecDepth 200000 in
/-- C1 witness: a concrete accepted pair, produced by running
`filter_batch` on one grounded, well-formed pair, satisfies the accepted
invariant. -/
theorem filter_batch_accepts_only_keep_above_threshold_witness :
    acceptedW ∈ (filter_batch defaultValidatorConfig [] [pairW] [("c1", aRotation)]).1 ∧
    acceptedW.quality_score.recommendation = "keep" ∧
    defaultValidatorConfig.min_overall_score ≤ acceptedW.quality_score.overall :=
  have hm : acceptedW ∈ (filter_batch defaultValidatorConfig [] [pairW] [("c1", aRotation)]).1 :=
    of_decide_eq_true (by with_unfolding_all rfl)
  ⟨hm, (filter_batch_accepts_only_keep_above_threshold
    defaultValidatorConfig [] [pairW] [("c1", aRotation)]).1 acceptedW hm⟩

set_option maxHeartbeats 4000000 in
set_option maxRecDepth 200000 in
/-- C2 counterexample: on this concrete question/answer/source the overall
score is 7.9 ≥ 6.0 and the issue list is non-empty (the question lacks its
final question mark), yet `score_quality` recommends "revise", not "keep"
as the claim states. -/
theorem score_quality_revise_counterexample :
    6 ≤ (score_quality defaultValidatorConfig [] qNoMark aRotation aRotation).1.overall ∧
    (score_quality defaultValidatorConfig [] qNoMark aRotation aRotation).1.issues ≠ [] ∧
    (score_quality defaultValidatorConfig [] qNoMark aRotation aRotation).1.recommendation
      = "revise" ∧
    (score_quality defaultValidatorConfig [] qNoMark aRotation aRotation).1.recommendation
      ≠ "keep" :=
  of_decide_eq_true (by with_unfolding_all rfl)

/-- C2 amended.  `score_quality` recommends "keep" exactly when the overall
score is ≥ 6.0 with an empty issue list (which subsumes the ≥ 7.5 branch),
"revise" exactly when the overall score is ≥ 6.0 with issues present, and
"reject" exactly when the overall score is below 6.0. -/
theorem score_quality_recommendation_cases
    (cfg : ValidatorConfig) (seen : List String)
    (question answer source_text : String) :
    ((score_quality cfg seen question answer source_text).1.recommendation = "keep" ↔
      6 ≤ (score_quality cfg seen question answer source_text).1.overall ∧
        (score_quality cfg seen question answer source_text).1.issues = []) ∧
    ((score_quality cfg seen question answer source_text).1.recommendation = "revise" ↔
      6 ≤ (score_quality cfg seen question answer source_text).1.overall ∧
        (score_quality cfg seen question answer source_text).1.issues ≠ []) ∧
    ((score_quality cfg seen question answer source_text).1.recommendation = "reject" ↔
      (score_quality cfg seen question answer source_text).1.overall < 6) := by
  rw [score_quality_recommendation]
  exact ⟨recommendationOf_keep _ _, recommendationOf_revise _ _, recommendationOf_reject _ _⟩

/-- C10.  Scoring mutates the deduplication set on every call (the
normalized question is recorded even when the pair is rejected), so
`score_quality` is not idempotent: a second call with identical arguments
sees the duplicate-question issue in its issue list, keeps every issue of
the first call, and its overall score cannot exceed the first call's. -/
theorem score_quality_second_call_flags_duplicate
    (cfg : ValidatorConfig) (seen : List String)
    (question answer source_text : String) :
    normalizeText question ∈ (score_quality cfg seen question answer source_text).2 ∧
    dupIssue ∈ (score_quality cfg (score_quality cfg seen question answer source_text).2
        question answer source_text).1.issues ∧
    (score_quality cfg (score_quality cfg seen question answer source_text).2
        question answer source_text).1.overall ≤
      (score_quality cfg seen question answer source_text).1.overall ∧
    ((score_quality cfg seen question answer source_text).1.issues.all
      (fun m => ((score_quality cfg (score_quality cfg seen question answer source_text).2
        question answer source_text).1.issues).contains m)) = true := by
  set nq := normalizeText question with hnq
  have hseen : nq ∈ (score_quality cfg seen question answer source_text).2 := by
    show nq ∈ (heuristic_checks cfg seen question answer source_text).2
    simp only [heuristic_checks]
    by_cases hc : seen.contains nq = true
    · rw [hnq, if_pos hc]; exact List.mem_of_elem_eq_true hc
    · rw [hnq, if_neg hc]; exact List.mem_cons_self _ _
  have hc2 : ((score_quality cfg seen question answer source_text).2).contains nq = true :=
    List.elem_eq_true_of_mem hseen
  have hiss2 : (score_quality cfg (score_quality cfg seen question answer source_text).2
      question answer source_text).1.issues =
      issuesPre cfg question answer ++ [dupIssue] ++ issuesGround answer source_text := by
    rw [score_quality_issues]
    show issuesPre cfg question answer ++
        (if ((score_quality cfg seen question answer source_text).2).contains nq
          then [dupIssue] else []) ++ issuesGround answer source_text = _
    rw [if_pos hc2]
  have hiss1 : (score_quality cfg seen question answer source_text).1.issues =
      issuesPre cfg question answer ++
        (if seen.contains nq then [dupIssue] else []) ++ issuesGround answer source_text := by
    rw [score_quality_issues]; rfl
  refine ⟨hseen, ?_, ?_, ?_⟩
  · rw [hiss2]
    simp [List.mem_append]
  · rw [score_quality_fst, score_quality_fst, heuristic_checks_valid, heuristic_checks_valid]
    have hlen : ((score_quality cfg seen question answer source_text).1.issues).length ≤
        ((score_quality cfg (score_quality cfg seen question answer source_text).2
          question answer source_text).1.issues).length := by
      rw [hiss1, hiss2]
      by_cases hc : nq ∈ seen <;> simp [hc]
    rw [score_quality_issues, score_quality_issues] at hlen
    exact scoreFromIssues_overall_anti question answer hlen
  · rw [List.all_eq_true]
    intro m hm
    apply List.elem_eq_true_of_mem
    rw [hiss2]
    rw [hiss1] at hm
    simp only [List.mem_append] at hm ⊢
    rcases hm with (hm | hm) | hm
    · exact Or.inl (Or.inl hm)
    · refine Or.inl (Or.inr ?_)
      by_cases hc : seen.contains nq = true
      · rw [if_pos hc] at hm; exact hm
      · rw [if_neg hc] at hm; exact absurd hm (List.not_mem_nil m)
    · exact Or.inr hm

/-! ### Batch planner lemmas -/

lemma adjustedDistribution_total (qa_per_call : ℕ) :
    (adjustedDistribution qa_per_call).total = (qa_per_call : ℤ) := by
  simp only [adjustedDistribution, rawDistribution, QuestionDistribution.total]
  split_ifs <;> dsimp only <;> omega

lemma adjustedDistribution_factual_nonpos {qa : ℕ} (h1 : 1 ≤ qa) (h5 : qa < 6) :
    (adjustedDistribution qa).factual ≤ 0 := by
  interval_cases qa <;> decide

lemma planLoop_mem {chunks : List String} {qa_per_batch chunks_per_batch num_batches : ℕ}
    {l : List ℕ} {cfgs : List BatchConfig}
    (h : planLoop chunks qa_per_batch chunks_per_batch num_batches l = some cfgs) :
    ∀ cfg ∈ cfgs, ∃ bn ∈ l,
      planBatch chunks qa_per_batch chunks_per_batch num_batches bn = some cfg := by
  induction l generalizing cfgs with
  | nil =>
    simp only [planLoop, Option.some.injEq] at h
    subst h
    intro cfg hcfg
    exact absurd hcfg (List.not_mem_nil cfg)
  | cons bn rest ih =>
    simp only [planLoop] at h
    cases hb : planBatch chunks qa_per_batch chunks_per_batch num_batches bn with
    | none => rw [hb] at h; exact absurd h (by simp)
    | some cfg0 =>
      rw [hb] at h
      cases hr : planLoop chunks qa_per_batch chunks_per_batch num_batches rest with
      | none => rw [hr] at h; exact absurd h (by simp)
      | some cfgs0 =>
        rw [hr] at h
        simp only [Option.some.injEq] at h
        subst h
        intro cfg hcfg
        rcases List.mem_cons.mp hcfg with rfl | hcfg
        · exact ⟨bn, List.mem_cons_self _ _, hb⟩
        · obtain ⟨bn', hbn', hp⟩ := ih hr cfg hcfg
          exact ⟨bn', List.mem_cons_of_mem _ hbn', hp⟩

lemma planBatch_shape {chunks : List String}
    {qa_per_batch chunks_per_batch num_batches bn : ℕ} {cfg : BatchConfig}
    (h : planBatch chunks qa_per_batch chunks_per_batch num_batches bn = some cfg) :
    1 ≤ cfg.qa_per_chunk ∧
      cfg.question_distribution = adjustedDistribution cfg.qa_per_chunk := by
  simp only [planBatch] at h
  split_ifs at h
  all_goals
    first
      | exact Option.noConfusion h
      | · injection h with h
          subst h
          unfold planConfig
          exact ⟨le_min (by norm_num [MAX_QA_PER_CALL]) (le_max_left 1 _), rfl⟩

lemma create_batch_plan_mem {chunks : List String} {total_target num_batches : ℕ}
    {plan : List BatchConfig}
    (h : create_batch_plan chunks total_target num_batches = some plan) :
    ∀ cfg ∈ plan, 1 ≤ cfg.qa_per_chunk ∧
      cfg.question_distribution = adjustedDistribution cfg.qa_per_chunk := by
  intro cfg hcfg
  unfold create_batch_plan at h
  split_ifs at h
  obtain ⟨bn, -, hp⟩ := planLoop_mem h cfg hcfg
  exact planBatch_shape hp

/-! ### Claim theorems: the batch planner -/

/-- C6.  In every batch configuration of a successfully created plan, the
six question-category counts sum exactly to `qa_per_chunk` (the per-call
pair count): the reconciliation into the factual category makes the sum
exact. -/
theorem create_batch_plan_distribution_total
    (chunks : List String) (total_target num_batches : ℕ) (plan : List BatchConfig)
    (h : create_batch_plan chunks total_target num_batches = some plan) :
    ∀ cfg ∈ plan, cfg.question_distribution.total = (cfg.qa_per_chunk : ℤ) := by
  intro cfg hcfg
  obtain ⟨-, hdist⟩ := create_batch_plan_mem h cfg hcfg
  rw [hdist, adjustedDistribution_total]

/-- C6 witness: the concrete plan over two chunks with target 100 in one
batch has a config whose distribution sums to its per-call count. -/
theorem create_batch_plan_distribution_total_witness :
    create_batch_plan ["a", "b"] 100 1 = some planC6 ∧
    cfgC6 ∈ planC6 ∧
    cfgC6.question_distribution.total = (cfgC6.qa_per_chunk : ℤ) :=
  have hp : create_batch_plan ["a", "b"] 100 1 = some planC6 :=
    of_decide_eq_true (by with_unfolding_all rfl)
  have hm : cfgC6 ∈ planC6 := of_decide_eq_true (by with_unfolding_all rfl)
  ⟨hp, hm, create_batch_plan_distribution_total ["a", "b"] 100 1 planC6 hp cfgC6 hm⟩

/-- C9.  In every successfully created plan, a config whose per-call pair
count is below 6 has a factual count ≤ 0 (each of the six categories is
floored at 1, summing to 6, and the whole excess over the per-call count
is subtracted from factual), while the distribution still sums to the
per-call count. -/
theorem create_batch_plan_small_call_factual_nonpos
    (chunks : List String) (total_target num_batches : ℕ) (plan : List BatchConfig)
    (h : create_batch_plan chunks total_target num_batches = some plan) :
    ∀ cfg ∈ plan, cfg.qa_per_chunk < 6 →
      cfg.question_distribution.factual ≤ 0 ∧
      cfg.question_distribution.total = (cfg.qa_per_chunk : ℤ) := by
  intro cfg hcfg hsmall
  obtain ⟨hone, hdist⟩ := create_batch_plan_mem h cfg hcfg
  rw [hdist]
  exact ⟨adjustedDistribution_factual_nonpos hone hsmall, adjustedDistribution_total _⟩

/-- C9 witness: the concrete one-chunk plan with total target 1 yields
`qa_per_chunk = 1` and a factual count of -4, the claim's example. -/
theorem create_batch_plan_small_call_factual_nonpos_witness :
    create_batch_plan ["a"] 1 1 = some planC9 ∧
    cfgC9 ∈ planC9 ∧
    cfgC9.qa_per_chunk = 1 ∧
    cfgC9.question_distribution.factual = -4 ∧
    cfgC9.question_distribution.factual ≤ 0 ∧
    cfgC9.question_distribution.total = (cfgC9.qa_per_chunk : ℤ) :=
  have hp : create_batch_plan ["a"] 1 1 = some planC9 :=
    of_decide_eq_true (by with_unfolding_all rfl)
  have hm : cfgC9 ∈ planC9 := of_decide_eq_true (by with_unfolding_all rfl)
  have hsmall : cfgC9.qa_per_chunk = 1 := of_decide_eq_true (by with_unfolding_all rfl)
  have hres := create_batch_plan_small_call_factual_nonpos ["a"] 1 1 planC9 hp cfgC9 hm
    (by rw [hsmall]; norm_num)
  ⟨hp, hm, hsmall, of_decide_eq_true (by with_unfolding_all rfl), hres.1, hres.2⟩

/-! ### Claim theorems: the rate limiter -/

/-- C7 counterexample: with `rpm_limit = 2`, four calls arriving at gaps
0, 1, 1, 0 are issued at times 0, 1, 60, 60 — the third call blocks until
the oldest timestamp exits the window but then clears the whole window
record, so the fourth call goes straight through, and the sliding window
[1, 61) holds 3 > 2 requests. -/
theorem rate_limit_sliding_window_counterexample :
    (clientCalls 2 1000000 2000 0 initialRateState [0, 1, 1, 0]).2 = [0, 1, 60, 60] ∧
    countInWindow (clientCalls 2 1000000 2000 0 initialRateState [0, 1, 1, 0]).2 1 = 3 ∧
    2 < countInWindow (clientCalls 2 1000000 2000 0 initialRateState [0, 1, 1, 0]).2 1 :=
  of_decide_eq_true (by with_unfolding_all rfl)

/-- C7 amended.  With a positive RPM limit, `_check_rate_limits` keeps at
most `rpm_limit` recorded timestamps after every call, and whenever the
cleaned 60-second window is already full it blocks until the oldest
recorded timestamp exits the window (the request is issued no earlier than
`oldest + 60`).  The sliding-window bound of the original claim fails
because the record is cleared wholesale after the block (see the
counterexample). -/
theorem check_rate_limits_blocks_and_bounds_record
    (rpm_limit tpm_limit estimated_tokens : ℕ) (s : RateState)
    (hrpm : 1 ≤ rpm_limit) :
    ((check_rate_limits rpm_limit tpm_limit estimated_tokens s).request_timestamps).length
        ≤ rpm_limit ∧
    (∀ oldest : ℚ,
      (s.request_timestamps.filter (fun t => decide (s.now - t < 60))).min? = some oldest →
      rpm_limit ≤ (s.request_timestamps.filter (fun t => decide (s.now - t < 60))).length →
      oldest + 60 ≤ (check_rate_limits rpm_limit tpm_limit estimated_tokens s).now) := by
  set ts := s.request_timestamps.filter (fun t => decide (s.now - t < 60)) with hts
  have hlt : ∀ x ∈ ts, s.now - x < 60 := by
    intro x hx
    have h2 := (List.mem_filter.mp hx).2
    exact of_decide_eq_true h2
  constructor
  · by_cases hfull : rpm_limit ≤ ts.length
    · rcases hmin : ts.min? with - | oldest
      · rw [List.min?_eq_none_iff] at hmin
        rw [hmin] at hfull
        simp at hfull
        omega
      · have hold : oldest ∈ ts := List.min?_mem min_choice hmin
        have hsleep : (0 : ℚ) < 60 - (s.now - oldest) := by
          have := hlt oldest hold
          linarith
        simp only [check_rate_limits, ← hts, hmin]
        rw [if_pos hfull, if_pos hsleep]
        split_ifs <;> simp
        all_goals omega
    · simp only [check_rate_limits, ← hts]
      rw [if_neg hfull]
      split_ifs <;> simp <;> omega
  · intro oldest hmin hfull
    have hold : oldest ∈ ts := List.min?_mem min_choice hmin
    have hsleep : (0 : ℚ) < 60 - (s.now - oldest) := by
      have := hlt oldest hold
      linarith
    simp only [check_rate_limits, ← hts, hmin]
    rw [if_pos hfull, if_pos hsleep]
    split_ifs <;> dsimp only <;> linarith

/-- C7 amended witness: with `rpm_limit = 1` and a full window, the single
recorded timestamp 0 forces the call at time 30 to block until 60; the
record afterwards holds one timestamp. -/
theorem check_rate_limits_blocks_and_bounds_record_witness :
    ((check_rate_limits 1 1000000 2000
        { now := 30, request_timestamps := [0], tokens_used_this_minute := 0,
          last_token_reset := 0 }).request_timestamps).length ≤ 1 ∧
    (0 : ℚ) + 60 ≤ (check_rate_limits 1 1000000 2000
        { now := 30, request_timestamps := [0], tokens_used_this_minute := 0,
          last_token_reset := 0 }).now :=
  have h := check_rate_limits_blocks_and_bounds_record 1 1000000 2000
    { now := 30, request_timestamps := [0], tokens_used_this_minute := 0,
      last_token_reset := 0 } (le_refl 1)
  ⟨h.1, h.2 0 (of_decide_eq_true (by with_unfolding_all rfl))
    (of_decide_eq_true (by with_unfolding_all rfl))⟩

/-! ### Orchestrator lemmas -/

lemma mem_insertChunk (l : List String) (c x : String) :
    x ∈ insertChunk l c ↔ x ∈ l ∨ x = c := by
  unfold insertChunk
  by_cases h : l.contains c = true
  · rw [if_pos h]
    refine ⟨Or.inl, ?_⟩
    rintro (hx | rfl)
    · exact hx
    · exact List.mem_of_elem_eq_true h
  · rw [if_neg h]
    simp [List.mem_append]

lemma collectResult_errors (st : BatchRunState) (cid : String) (w : Option ChunkResult) :
    (collectResult st cid w).stats.errors = st.stats.errors := by
  cases w with
  | none => rfl
  | some r =>
    simp only [collectResult]
    split_ifs <;> rfl

lemma collectResult_processed (st : BatchRunState) (cid : String) (r : ChunkResult) :
    (collectResult st cid (some r)).processed = insertChunk st.processed cid := by
  simp only [collectResult]
  split_ifs <;> rfl

/-- The checkpoint-cadence invariant of the collection loop: the resumed
count never exceeds the running count, every saved checkpoint's count is a
multiple of 10, and the last saved count is `max c0 (10 * (c / 10))`. -/
lemma collectResult_invariant (c0 : ℕ) (st : BatchRunState) (cid : String)
    (w : Option ChunkResult)
    (h1 : c0 ≤ st.stats.chunks_processed)
    (h2 : ∀ cp ∈ st.checkpoints, cp.stats.chunks_processed % 10 = 0)
    (h3 : lastCheckpointCount c0 st = max c0 (10 * (st.stats.chunks_processed / 10))) :
    c0 ≤ (collectResult st cid w).stats.chunks_processed ∧
    (∀ cp ∈ (collectResult st cid w).checkpoints, cp.stats.chunks_processed % 10 = 0) ∧
    lastCheckpointCount c0 (collectResult st cid w) =
      max c0 (10 * ((collectResult st cid w).stats.chunks_processed / 10)) := by
  cases w with
  | none => exact ⟨h1, h2, h3⟩
  | some r =>
    simp only [collectResult]
    by_cases hmod : (st.stats.chunks_processed + 1) % 10 = 0
    · rw [if_pos hmod]
      dsimp only
      refine ⟨by omega, ?_, ?_⟩
      · intro cp hcp
        rcases List.mem_append.mp hcp with hcp | hcp
        · exact h2 cp hcp
        · rw [List.mem_singleton.mp hcp]
          exact hmod
      · unfold lastCheckpointCount
        dsimp only
        rw [List.getLast?_concat]
        dsimp only
        omega
    · rw [if_neg hmod]
      dsimp only
      refine ⟨by omega, h2, ?_⟩
      unfold lastCheckpointCount at h3 ⊢
      dsimp only
      have heq : (st.stats.chunks_processed + 1) / 10 = st.stats.chunks_processed / 10 := by
        omega
      rw [heq]
      exact h3

lemma generate_batch_loop_invariant (c0 : ℕ)
    (l : List (String × Except String ChunkResult)) :
    ∀ st : BatchRunState,
      c0 ≤ st.stats.chunks_processed →
      (∀ cp ∈ st.checkpoints, cp.stats.chunks_processed % 10 = 0) →
      lastCheckpointCount c0 st = max c0 (10 * (st.stats.chunks_processed / 10)) →
      (c0 ≤ (l.foldl (fun st pr => collectResult st pr.1 (process_single_chunk pr.2))
          st).stats.chunks_processed ∧
        (∀ cp ∈ (l.foldl (fun st pr => collectResult st pr.1 (process_single_chunk pr.2))
            st).checkpoints, cp.stats.chunks_processed % 10 = 0) ∧
        lastCheckpointCount c0
            (l.foldl (fun st pr => collectResult st pr.1 (process_single_chunk pr.2)) st) =
          max c0 (10 * ((l.foldl (fun st pr => collectResult st pr.1 (process_single_chunk pr.2))
            st).stats.chunks_processed / 10))) := by
  induction l with
  | nil => exact fun st h1 h2 h3 => ⟨h1, h2, h3⟩
  | cons p rest ih =>
    intro st h1 h2 h3
    rw [List.foldl_cons]
    obtain ⟨g1, g2, g3⟩ :=
      collectResult_invariant c0 st p.1 (process_single_chunk p.2) h1 h2 h3
    exact ih _ g1 g2 g3

lemma generate_batch_loop_errors
    (l : List (String × Except String ChunkResult)) :
    ∀ st : BatchRunState,
      (l.foldl (fun st pr => collectResult st pr.1 (process_single_chunk pr.2))
        st).stats.errors = st.stats.errors := by
  induction l with
  | nil => exact fun st => rfl
  | cons p rest ih =>
    intro st
    rw [List.foldl_cons, ih, collectResult_errors]

lemma generate_batch_loop_processed
    (l : List (String × Except String ChunkResult)) :
    ∀ (st : BatchRunState) (cid : String),
      (cid ∈ (l.foldl (fun st pr => collectResult st pr.1 (process_single_chunk pr.2))
          st).processed ↔
        cid ∈ st.processed ∨ ∃ r : ChunkResult, (cid, Except.ok r) ∈ l) := by
  induction l with
  | nil => simp
  | cons p rest ih =>
    intro st cid
    rcases p with ⟨c, w⟩
    rw [List.foldl_cons, ih]
    cases w with
    | error e =>
      show (cid ∈ (collectResult st c none).processed ∨ _) ↔ _
      simp only [collectResult, List.mem_cons, Prod.mk.injEq]
      constructor
      · rintro (hm | ⟨r, hr⟩)
        · exact Or.inl hm
        · exact Or.inr ⟨r, Or.inr hr⟩
      · rintro (hm | ⟨r, (⟨-, hok⟩ | hr)⟩)
        · exact Or.inl hm
        · exact absurd hok (by simp)
        · exact Or.inr ⟨r, hr⟩
    | ok r0 =>
      show (cid ∈ (collectResult st c (some r0)).processed ∨ _) ↔ _
      rw [collectResult_processed, mem_insertChunk]
      simp only [List.mem_cons, Prod.mk.injEq]
      constructor
      · rintro ((hm | rfl) | ⟨r, hr⟩)
        · exact Or.inl hm
        · exact Or.inr ⟨r0, Or.inl ⟨rfl, rfl⟩⟩
        · exact Or.inr ⟨r, Or.inr hr⟩
      · rintro (hm | ⟨r, (⟨rfl, -⟩ | hr)⟩)
        · exact Or.inl (Or.inl hm)
        · exact Or.inl (Or.inr rfl)
        · exact Or.inr ⟨r, hr⟩

/-! ### Claim theorems: the orchestrator -/

/-- C5 counterexample: a run over nine chunks that all succeed (from an
empty resumed set) persists no checkpoint at all — the only end-of-run
persistence is the metadata record — so the last persisted checkpoint is
nine completed chunks stale, contradicting the claim that a final
checkpoint reflecting the full processed set is written. -/
theorem generate_batch_no_final_checkpoint_counterexample :
    (generate_batch []
      [("c1", Except.ok ⟨[], [], [], 1⟩), ("c2", Except.ok ⟨[], [], [], 1⟩),
        ("c3", Except.ok ⟨[], [], [], 1⟩), ("c4", Except.ok ⟨[], [], [], 1⟩),
        ("c5", Except.ok ⟨[], [], [], 1⟩), ("c6", Except.ok ⟨[], [], [], 1⟩),
        ("c7", Except.ok ⟨[], [], [], 1⟩), ("c8", Except.ok ⟨[], [], [], 1⟩),
        ("c9", Except.ok ⟨[], [], [], 1⟩)]).1.checkpoints = [] ∧
    (generate_batch []
      [("c1", Except.ok ⟨[], [], [], 1⟩), ("c2", Except.ok ⟨[], [], [], 1⟩),
        ("c3", Except.ok ⟨[], [], [], 1⟩), ("c4", Except.ok ⟨[], [], [], 1⟩),
        ("c5", Except.ok ⟨[], [], [], 1⟩), ("c6", Except.ok ⟨[], [], [], 1⟩),
        ("c7", Except.ok ⟨[], [], [], 1⟩), ("c8", Except.ok ⟨[], [], [], 1⟩),
        ("c9", Except.ok ⟨[], [], [], 1⟩)]).1.stats.chunks_processed = 9 ∧
    (generate_batch []
      [("c1", Except.ok ⟨[], [], [], 1⟩), ("c2", Except.ok ⟨[], [], [], 1⟩),
        ("c3", Except.ok ⟨[], [], [], 1⟩), ("c4", Except.ok ⟨[], [], [], 1⟩),
        ("c5", Except.ok ⟨[], [], [], 1⟩), ("c6", Except.ok ⟨[], [], [], 1⟩),
        ("c7", Except.ok ⟨[], [], [], 1⟩), ("c8", Except.ok ⟨[], [], [], 1⟩),
        ("c9", Except.ok ⟨[], [], [], 1⟩)]).1.processed.length = 9 :=
  of_decide_eq_true (by with_unfolding_all rfl)

/-- C5 amended.  `generate_batch` persists checkpoints only at counts that
are multiples of 10 inside the collection loop; at completion it persists
the batch metadata/statistics record (equal to the final stats) but no
final checkpoint, so the last persisted checkpoint can be up to 9
completed chunks stale (never more). -/
theorem generate_batch_checkpoint_cadence
    (resumedProcessed : List String)
    (chunk_work : List (String × Except String ChunkResult)) :
    (∀ cp ∈ (generate_batch resumedProcessed chunk_work).1.checkpoints,
        cp.stats.chunks_processed % 10 = 0) ∧
    (generate_batch resumedProcessed chunk_work).2 =
      (generate_batch resumedProcessed chunk_work).1.stats ∧
    lastCheckpointCount resumedProcessed.length
        (generate_batch resumedProcessed chunk_work).1 ≤
      (generate_batch resumedProcessed chunk_work).1.stats.chunks_processed ∧
    (generate_batch resumedProcessed chunk_work).1.stats.chunks_processed -
        lastCheckpointCount resumedProcessed.length
          (generate_batch resumedProcessed chunk_work).1 ≤ 9 := by
  have hinit1 : resumedProcessed.length ≤
      (initialRunState resumedProcessed).stats.chunks_processed := le_refl _
  have hinit2 : ∀ cp ∈ (initialRunState resumedProcessed).checkpoints,
      cp.stats.chunks_processed % 10 = 0 := by
    intro cp hcp
    exact absurd hcp (List.not_mem_nil cp)
  have hinit3 : lastCheckpointCount resumedProcessed.length
      (initialRunState resumedProcessed) =
      max resumedProcessed.length
        (10 * ((initialRunState resumedProcessed).stats.chunks_processed / 10)) := by
    unfold lastCheckpointCount initialRunState
    simp only [List.getLast?_nil]
    omega
  obtain ⟨g1, g2, g3⟩ := generate_batch_loop_invariant resumedProcessed.length chunk_work
    (initialRunState resumedProcessed) hinit1 hinit2 hinit3
  refine ⟨g2, rfl, ?_, ?_⟩ <;> rw [show (generate_batch resumedProcessed chunk_work).1 =
    chunk_work.foldl (fun st pr => collectResult st pr.1 (process_single_chunk pr.2))
      (initialRunState resumedProcessed) from rfl] <;> omega

/-- C8 counterexample: in a run where chunk "c2" raises (modelled by the
`Except.error` outcome, which `_process_single_chunk` catches into `None`)
while sibling "c1" succeeds, the final error tally is 0 — the claim's
"counted in the error tally" fails — although the failed chunk is indeed
left out of the processed set and the sibling is unaffected. -/
theorem chunk_error_not_tallied_counterexample :
    process_single_chunk (Except.error "boom") = none ∧
    (generate_batch [] [("c1", Except.ok ⟨[], [], [], 1⟩),
        ("c2", Except.error "boom")]).1.stats.errors = 0 ∧
    "c2" ∉ (generate_batch [] [("c1", Except.ok ⟨[], [], [], 1⟩),
        ("c2", Except.error "boom")]).1.processed ∧
    "c1" ∈ (generate_batch [] [("c1", Except.ok ⟨[], [], [], 1⟩),
        ("c2", Except.error "boom")]).1.processed :=
  of_decide_eq_true (by with_unfolding_all rfl)

/-- C8 amended.  A chunk error is caught at the chunk boundary
(`_process_single_chunk` returns `None` instead of propagating), the
chunk is not added to the processed set (so it stays eligible for a
resumed retry) while successful siblings are, and — contrary to the
original claim — the error tally is *not* incremented: the `errors`
counter never changes for caught chunk errors, since the collecting
loop's `except` arm is unreachable for them. -/
theorem chunk_error_caught_not_tallied
    (resumedProcessed : List String)
    (chunk_work : List (String × Except String ChunkResult)) :
    (∀ e : String, process_single_chunk (Except.error e) = none) ∧
    (generate_batch resumedProcessed chunk_work).1.stats.errors = 0 ∧
    (∀ cid : String,
      cid ∈ (generate_batch resumedProcessed chunk_work).1.processed ↔
        cid ∈ resumedProcessed ∨ ∃ r : ChunkResult, (cid, Except.ok r) ∈ chunk_work) := by
  refine ⟨fun e => rfl, ?_, ?_⟩
  · exact generate_batch_loop_errors chunk_work (initialRunState resumedProcessed)
  · intro cid
    exact generate_batch_loop_processed chunk_work (initialRunState resumedProcessed) cid

/-! ### Claim theorems: structured generation and retries -/

/-- C3 counterexample: when every attempt of the underlying request
fails, `generate` raises (the retry wrapper surfaces `Except.error`), but
`generate_qa_batch` returns the empty list — exactly the value it also
returns when the request succeeds and all three parsing tiers yield
nothing — so the failure is swallowed at the `generate_qa_batch` boundary
and its caller cannot distinguish "request failed" from "no output". -/
theorem generate_qa_batch_failure_swallowed_counterexample :
    generateWithRetry (fun _ => GenAttempt.fail) = Except.error () ∧
    generate_qa_batch (fun _ => GenAttempt.fail) = [] ∧
    generate_qa_batch (fun _ => GenAttempt.ok "no json here at all") = [] :=
  ⟨rfl, rfl, by with_unfolding_all rfl⟩

/-- C3 amended.  When the underlying request fails on all three attempts,
`generate` surfaces the failure to its caller; `generate_qa_batch`
however catches it and returns `[]`, indistinguishable from the
empty-output case. -/
theorem generate_qa_batch_swallows_request_failure
    (oracle : ℕ → GenAttempt)
    (h0 : oracle 0 = GenAttempt.fail)
    (h1 : oracle 1 = GenAttempt.fail)
    (h2 : oracle 2 = GenAttempt.fail) :
    generateWithRetry oracle = Except.error () ∧
    generate_qa_batch oracle = [] := by
  have hg : generateWithRetry oracle = Except.error () := by
    unfold generateWithRetry
    rw [h0, h1, h2]
  refine ⟨hg, ?_⟩
  unfold generate_qa_batch
  rw [hg]

/-- C3 amended witness: the always-failing oracle. -/
theorem generate_qa_batch_swallows_request_failure_witness :
    generateWithRetry (fun _ => GenAttempt.fail) = Except.error () ∧
    generate_qa_batch (fun _ => GenAttempt.fail) = [] :=
  generate_qa_batch_swallows_request_failure (fun _ => GenAttempt.fail) rfl rfl rfl

/-! ### Character-class lemmas for the truncated-array class -/

lemma plainChar_spec {c : Char} (h : plainChar c = true) :
    c ≠ '"' ∧ c ≠ '\\' ∧ c ≠ '[' ∧ c ≠ ']' ∧ c ≠ '\x7b' ∧ c ≠ '\x7d' ∧
      c ≠ ',' ∧ isReSpace c = false ∧ 32 ≤ c.val :=
  of_decide_eq_true h

lemma all_dropWhile_id {p : Char → Bool} {l : List Char}
    (h : ∀ c ∈ l, p c = false) : l.dropWhile p = l := by
  cases l with
  | nil => rfl
  | cons c rest => simp [List.dropWhile_cons, h c (List.mem_cons_self c rest)]

/-- `str.strip()` is the identity on whitespace-free text. -/
lemma strip_id_of_no_space {l : List Char} (h : ∀ c ∈ l, isPySpace c = false) :
    rstripChars (lstripChars l) = l := by
  unfold lstripChars rstripChars
  rw [all_dropWhile_id h, all_dropWhile_id (fun c hc => h c (List.mem_reverse.mp hc)),
    List.reverse_reverse]

lemma plainChar_neutral {c : Char} (h : plainChar c = true) : neutralChar c = true := by
  obtain ⟨h1, h2, h3, h4, h5, h6, -, -, -⟩ := plainChar_spec h
  exact decide_eq_true ⟨h2, h1, h3, h4, h5, h6⟩

lemma plainChar_not_space {c : Char} (h : plainChar c = true) : isPySpace c = false :=
  (plainChar_spec h).2.2.2.2.2.2.2.1

/-- Every character of a rendered field is a quote, a colon or plain. -/
lemma mem_renderField {kv : String × String} (h1 : plainStr kv.1 = true)
    (h2 : plainStr kv.2 = true) {c : Char} (hc : c ∈ renderField kv) :
    c = '"' ∨ c = ':' ∨ plainChar c = true := by
  have hk := List.all_eq_true.mp h1
  have hv := List.all_eq_true.mp h2
  simp only [renderField, List.mem_cons, List.mem_append, List.mem_singleton] at hc
  rcases hc with rfl | hc | rfl | rfl | rfl | hc | rfl | hc
  · exact Or.inl rfl
  · exact Or.inr (Or.inr (hk c hc))
  · exact Or.inl rfl
  · exact Or.inr (Or.inl rfl)
  · exact Or.inl rfl
  · exact Or.inr (Or.inr (hv c hc))
  · exact Or.inl rfl
  · exact absurd hc (List.not_mem_nil c)

/-- Every character of a rendered field list is a quote, colon, comma or
plain. -/
lemma mem_renderFieldsBody {fs : List (String × String)}
    (h : ∀ kv ∈ fs, plainStr kv.1 = true ∧ plainStr kv.2 = true) {c : Char}
    (hc : c ∈ renderFieldsBody fs) :
    c = '"' ∨ c = ':' ∨ c = ',' ∨ plainChar c = true := by
  induction fs with
  | nil => exact absurd hc (List.not_mem_nil c)
  | cons kv rest ih =>
    cases rest with
    | nil =>
      have := mem_renderField (h kv (by simp)).1 (h kv (by simp)).2 hc
      tauto
    | cons kv2 rest2 =>
      rw [show renderFieldsBody (kv :: kv2 :: rest2) =
        renderField kv ++ ',' :: renderFieldsBody (kv2 :: rest2) from rfl] at hc
      rcases List.mem_append.mp hc with hc | hc
      · have := mem_renderField (h kv (by simp)).1 (h kv (by simp)).2 hc
        tauto
      · rcases List.mem_cons.mp hc with rfl | hc
        · tauto
        · exact ih (fun kv hkv => h kv (by simp [hkv])) hc

/-- Every character of a rendered object is structural or plain. -/
lemma mem_renderObjChars {fs : List (String × String)}
    (h : ∀ kv ∈ fs, plainStr kv.1 = true ∧ plainStr kv.2 = true) {c : Char}
    (hc : c ∈ renderObjChars fs) :
    c = '"' ∨ c = ':' ∨ c = ',' ∨ c = '\x7b' ∨ c = '\x7d' ∨ plainChar c = true := by
  rcases List.mem_cons.mp hc with rfl | hc
  · tauto
  · rcases List.mem_append.mp hc with hc | hc
    · have := mem_renderFieldsBody h hc
      tauto
    · rcases List.mem_singleton.mp hc with rfl
      tauto

/-- Every character of a rendered item list is structural or plain. -/
lemma mem_renderItems {objs : List (List (String × String))}
    (h : ∀ fs ∈ objs, ∀ kv ∈ fs, plainStr kv.1 = true ∧ plainStr kv.2 = true) {c : Char}
    (hc : c ∈ renderItems objs) :
    c = '"' ∨ c = ':' ∨ c = ',' ∨ c = '\x7b' ∨ c = '\x7d' ∨ plainChar c = true := by
  induction objs with
  | nil => exact absurd hc (List.not_mem_nil c)
  | cons o rest ih =>
    cases rest with
    | nil => exact mem_renderObjChars (h o (by simp)) hc
    | cons o2 rest2 =>
      rw [show renderItems (o :: o2 :: rest2) =
        renderObjChars o ++ ',' :: renderItems (o2 :: rest2) from rfl] at hc
      rcases List.mem_append.mp hc with hc | hc
      · exact mem_renderObjChars (h o (by simp)) hc
      · rcases List.mem_cons.mp hc with rfl | hc
        · tauto
        · exact ih (fun fs hfs => h fs (by simp [hfs])) hc

lemma structural_not_space {c : Char}
    (h : c = '"' ∨ c = ':' ∨ c = ',' ∨ c = '\x7b' ∨ c = '\x7d' ∨ plainChar c = true) :
    isPySpace c = false := by
  rcases h with rfl | rfl | rfl | rfl | rfl | h
  · rfl
  · rfl
  · rfl
  · rfl
  · rfl
  · exact plainChar_not_space h

lemma goodSeq_cons_tail {c : Char} {l : List Char} (h : goodSeq (c :: l) = true) :
    goodSeq l = true := by
  cases l with
  | nil => rfl
  | cons d rest => exact (Bool.and_eq_true_iff.mp h).2

lemma goodSeq_cons_of_ne {c : Char} {l : List Char} (hc : c ≠ ',')
    (h : goodSeq l = true) : goodSeq (c :: l) = true := by
  cases l with
  | nil => rfl
  | cons d rest =>
    show ((!(c == ',') || (d == '"' || d == '\x7b')) && goodSeq (d :: rest)) = true
    rw [Bool.and_eq_true_iff]
    refine ⟨?_, h⟩
    simp [hc]

lemma goodSeq_comma_head {d : Char} {rest : List Char}
    (hd : d = '"' ∨ d = '\x7b') (h : goodSeq (d :: rest) = true) :
    goodSeq (',' :: d :: rest) = true := by
  show ((!(',' == ',') || (d == '"' || d == '\x7b')) && goodSeq (d :: rest)) = true
  rw [Bool.and_eq_true_iff]
  refine ⟨?_, h⟩
  rcases hd with rfl | rfl <;> rfl

lemma goodSeq_comma_cons {l : List Char}
    (hd : l.head? = some '"' ∨ l.head? = some '\x7b') (h : goodSeq l = true) :
    goodSeq (',' :: l) = true := by
  cases l with
  | nil => rcases hd with hd | hd <;> exact absurd hd (by simp)
  | cons d rest =>
    apply goodSeq_comma_head ?_ h
    rcases hd with hd | hd <;> rw [List.head?_cons, Option.some.injEq] at hd
    · exact Or.inl hd
    · exact Or.inr hd

lemma goodSeq_of_no_comma {l : List Char} (h : ∀ c ∈ l, c ≠ ',') : goodSeq l = true := by
  induction l with
  | nil => rfl
  | cons c rest ih =>
    cases rest with
    | nil => rfl
    | cons d r2 =>
      show ((!(c == ',') || (d == '"' || d == '\x7b')) && goodSeq (d :: r2)) = true
      rw [Bool.and_eq_true_iff]
      constructor
      · simp [h c (by simp)]
      · exact ih (fun x hx => h x (by simp [hx]))

lemma goodSeq_append : ∀ (a : List Char), goodSeq a = true → ∀ (b : List Char),
    goodSeq b = true →
    (a.getLast? = some ',' → b.head? = some '"' ∨ b.head? = some '\x7b') →
    goodSeq (a ++ b) = true
  | [], _, b, hb, _ => by simpa using hb
  | [c], _, b, hb, hj => by
    cases b with
    | nil => rfl
    | cons d r2 =>
      show ((!(c == ',') || (d == '"' || d == '\x7b')) && goodSeq (d :: r2)) = true
      rw [Bool.and_eq_true_iff]
      refine ⟨?_, hb⟩
      by_cases hc : c = ','
      · subst hc
        rcases hj rfl with hd | hd <;>
          (rw [List.head?_cons, Option.some.injEq] at hd; subst hd; rfl)
      · simp [hc]
  | c :: c2 :: r, ha, b, hb, hj => by
    have hpair := (Bool.and_eq_true_iff.mp ha).1
    have htail := (Bool.and_eq_true_iff.mp ha).2
    have hrec := goodSeq_append (c2 :: r) htail b hb (fun hl => hj (by
      rw [List.getLast?_cons_cons]
      exact hl))
    show ((!(c == ',') || (c2 == '"' || c2 == '\x7b')) && goodSeq (c2 :: (r ++ b))) = true
    rw [Bool.and_eq_true_iff]
    exact ⟨hpair, hrec⟩

lemma goodSeq_append_left : ∀ {a b : List Char}, goodSeq (a ++ b) = true →
    goodSeq a = true
  | [], _, _ => rfl
  | [_], _, _ => rfl
  | c :: c2 :: r, b, h => by
    have h' := Bool.and_eq_true_iff.mp
      (show ((!(c == ',') || (c2 == '"' || c2 == '\x7b')) &&
        goodSeq (c2 :: (r ++ b))) = true from h)
    show ((!(c == ',') || (c2 == '"' || c2 == '\x7b')) && goodSeq (c2 :: r)) = true
    rw [Bool.and_eq_true_iff]
    exact ⟨h'.1, goodSeq_append_left h'.2⟩

/-- On comma-good text both trailing-comma substitutions do nothing. -/
lemma commaSub_eq_self {close : Char} (hc : close = ']' ∨ close = '\x7d') :
    ∀ (l : List Char), goodSeq l = true → commaSub close l = l
  | [], _ => by rw [commaSub]
  | c :: rest, h => by
    rw [commaSub]
    rw [if_neg ?hcond]
    · rw [commaSub_eq_self hc rest (goodSeq_cons_tail h)]
    case hcond =>
      rintro ⟨rfl, hhead⟩
      cases rest with
      | nil =>
        rw [List.dropWhile_nil, List.headD_nil] at hhead
        rcases hc with rfl | rfl <;> exact absurd hhead (by decide)
      | cons d r2 =>
        have hpair := (Bool.and_eq_true_iff.mp h).1
        have hd : d = '"' ∨ d = '\x7b' := by simpa using hpair
        have hdns : isReSpace d = false := by
          rcases hd with rfl | rfl <;> rfl
        have hdw : (d :: r2).dropWhile isReSpace = d :: r2 := by
          rw [List.dropWhile_cons, hdns]
          simp
        rw [hdw, List.headD_cons] at hhead
        rcases hd with rfl | rfl <;> rcases hc with rfl | rfl <;>
          exact absurd hhead (by decide)

/-! ### Heads, last characters and comma-goodness of the renders -/

lemma renderField_head (kv : String × String) : (renderField kv).head? = some '"' := rfl

lemma renderField_getLast (kv : String × String) :
    (renderField kv).getLast? = some '"' := by
  have h : renderField kv =
      ('"' :: (kv.1.data ++ '"' :: ':' :: '"' :: kv.2.data)) ++ ['"'] := by
    simp [renderField, List.cons_append, List.append_assoc]
  rw [h, List.getLast?_concat]

lemma renderFieldsBody_head {fs : List (String × String)} (h : fs ≠ []) :
    (renderFieldsBody fs).head? = some '"' := by
  cases fs with
  | nil => exact absurd rfl h
  | cons kv rest =>
    cases rest with
    | nil => rfl
    | cons kv2 r2 =>
      show (renderField kv ++ ',' :: renderFieldsBody (kv2 :: r2)).head? = some '"'
      rfl

lemma renderFieldsBody_getLast {fs : List (String × String)} (h : fs ≠ []) :
    (renderFieldsBody fs).getLast? = some '"' := by
  induction fs with
  | nil => exact absurd rfl h
  | cons kv rest ih =>
    cases rest with
    | nil => exact renderField_getLast kv
    | cons kv2 r2 =>
      show (renderField kv ++ ',' :: renderFieldsBody (kv2 :: r2)).getLast? = some '"'
      rw [List.getLast?_append]
      · show (',' :: renderFieldsBody (kv2 :: r2)).getLast? = some '"'
        rw [List.getLast?_cons, ih (by simp)]
        cases hb : renderFieldsBody (kv2 :: r2) with
        | nil => rw [hb] at ih; exact absurd (ih (by simp)) (by simp)
        | cons x xs => rfl

lemma renderObjChars_head (fs : List (String × String)) :
    (renderObjChars fs).head? = some '\x7b' := rfl

lemma renderObjChars_getLast (fs : List (String × String)) :
    (renderObjChars fs).getLast? = some '\x7d' := by
  show ('\x7b' :: (renderFieldsBody fs ++ ['\x7d'])).getLast? = some '\x7d'
  rw [List.getLast?_cons, List.getLast?_append]
  · cases hb : renderFieldsBody fs ++ ['\x7d'] with
    | nil => exact absurd hb (by simp)
    | cons x xs => rfl

lemma renderItems_head {objs : List (List (String × String))} (h : objs ≠ []) :
    (renderItems objs).head? = some '\x7b' := by
  cases objs with
  | nil => exact absurd rfl h
  | cons o rest =>
    cases rest with
    | nil => rfl
    | cons o2 r2 =>
      show (renderObjChars o ++ ',' :: renderItems (o2 :: r2)).head? = some '\x7b'
      rfl

lemma renderItems_getLast {objs : List (List (String × String))} (h : objs ≠ []) :
    (renderItems objs).getLast? = some '\x7d' := by
  induction objs with
  | nil => exact absurd rfl h
  | cons o rest ih =>
    cases rest with
    | nil => exact renderObjChars_getLast o
    | cons o2 r2 =>
      show (renderObjChars o ++ ',' :: renderItems (o2 :: r2)).getLast? = some '\x7d'
      rw [List.getLast?_append]
      · rw [List.getLast?_cons, ih (by simp)]
        cases hb : renderItems (o2 :: r2) with
        | nil => rw [hb] at ih; exact absurd (ih (by simp)) (by simp)
        | cons x xs => rfl

lemma goodSeq_renderField {kv : String × String} (h1 : plainStr kv.1 = true)
    (h2 : plainStr kv.2 = true) : goodSeq (renderField kv) = true :=
  goodSeq_of_no_comma (fun c hc => by
    rcases mem_renderField h1 h2 hc with rfl | rfl | hp
    · decide
    · decide
    · exact (plainChar_spec hp).2.2.2.2.2.2.1)

lemma goodSeq_renderFieldsBody {fs : List (String × String)}
    (h : ∀ kv ∈ fs, plainStr kv.1 = true ∧ plainStr kv.2 = true) :
    goodSeq (renderFieldsBody fs) = true := by
  induction fs with
  | nil => rfl
  | cons kv rest ih =>
    cases rest with
    | nil => exact goodSeq_renderField (h kv (by simp)).1 (h kv (by simp)).2
    | cons kv2 r2 =>
      show goodSeq (renderField kv ++ ',' :: renderFieldsBody (kv2 :: r2)) = true
      apply goodSeq_append _ (goodSeq_renderField (h kv (by simp)).1 (h kv (by simp)).2)
      · exact goodSeq_comma_cons (Or.inl (renderFieldsBody_head (by simp)))
          (ih (fun kv hkv => h kv (by simp [hkv])))
      · intro hl
        rw [renderField_getLast] at hl
        exact absurd hl (by decide)

lemma goodSeq_renderObjChars {fs : List (String × String)}
    (h : ∀ kv ∈ fs, plainStr kv.1 = true ∧ plainStr kv.2 = true) :
    goodSeq (renderObjChars fs) = true := by
  show goodSeq ('\x7b' :: (renderFieldsBody fs ++ ['\x7d'])) = true
  apply goodSeq_cons_of_ne (by decide)
  cases fs with
  | nil => rfl
  | cons kv rest =>
    apply goodSeq_append _ (goodSeq_renderFieldsBody h) ['\x7d'] rfl
    intro hl
    rw [renderFieldsBody_getLast (by simp)] at hl
    exact absurd hl (by decide)

lemma goodSeq_renderItems {objs : List (List (String × String))}
    (h : ∀ fs ∈ objs, ∀ kv ∈ fs, plainStr kv.1 = true ∧ plainStr kv.2 = true) :
    goodSeq (renderItems objs) = true := by
  induction objs with
  | nil => rfl
  | cons o rest ih =>
    cases rest with
    | nil => exact goodSeq_renderObjChars (h o (by simp))
    | cons o2 r2 =>
      show goodSeq (renderObjChars o ++ ',' :: renderItems (o2 :: r2)) = true
      apply goodSeq_append _ (goodSeq_renderObjChars (h o (by simp)))
      · exact goodSeq_comma_cons (Or.inr (renderItems_head (by simp)))
          (ih (fun fs hfs => h fs (by simp [hfs])))
      · intro hl
        rw [renderObjChars_getLast] at hl
        exact absurd hl (by decide)

/-! ### The truncated input: shape, whitespace-freedom, comma-goodness -/

/-- A non-trivial fragment of a rendered object is the opening brace
followed by a prefix of the field body. -/
lemma frag_shape {fs' : List (String × String)} {frag rest : List Char}
    (hfrag : renderObjChars fs' = frag ++ rest) (hne : frag ≠ []) (hrest : rest ≠ []) :
    ∃ p, frag = '\x7b' :: p ∧ ∃ t, p ++ t = renderFieldsBody fs' := by
  cases frag with
  | nil => exact absurd rfl hne
  | cons f p =>
    have h0 : '\x7b' :: (renderFieldsBody fs' ++ ['\x7d']) = f :: (p ++ rest) := by
      simpa [renderObjChars] using hfrag
    injection h0 with h1 h2
    subst h1
    refine ⟨p, rfl, ?_⟩
    rcases List.eq_nil_or_concat rest with rfl | ⟨r', x, rfl⟩
    · exact absurd rfl hrest
    · have h3 : (p ++ r') ++ [x] = renderFieldsBody fs' ++ ['\x7d'] := by
        rw [List.append_assoc]
        rw [List.concat_eq_append] at h2
        exact h2.symm
      refine ⟨r', ?_⟩
      have := congrArg (fun l => List.dropLast l) h3
      simpa using this

/-- Every character of the truncated input is structural or plain. -/
lemma mem_truncated {objs : List (List (String × String))}
    {fs' : List (String × String)} {frag rest : List Char}
    (hplain : ∀ fs ∈ objs, ∀ kv ∈ fs, plainStr kv.1 = true ∧ plainStr kv.2 = true)
    (hplain' : ∀ kv ∈ fs', plainStr kv.1 = true ∧ plainStr kv.2 = true)
    (hfrag : renderObjChars fs' = frag ++ rest) {c : Char}
    (hc : c ∈ truncatedArrayChars objs frag) :
    c = '[' ∨ c = '"' ∨ c = ':' ∨ c = ',' ∨ c = '\x7b' ∨ c = '\x7d' ∨
      plainChar c = true := by
  have hfragmem : ∀ x ∈ frag, x = '"' ∨ x = ':' ∨ x = ',' ∨ x = '\x7b' ∨ x = '\x7d' ∨
      plainChar x = true := by
    intro x hx
    exact mem_renderObjChars hplain' (by rw [hfrag]; exact List.mem_append.mpr (Or.inl hx))
  rcases List.mem_cons.mp hc with rfl | hc
  · exact Or.inl rfl
  · cases objs with
    | nil =>
      have := hfragmem c hc
      tauto
    | cons o os =>
      rcases List.mem_append.mp hc with hc | hc
      · have := mem_renderItems hplain hc
        tauto
      · rcases List.mem_cons.mp hc with rfl | hc
        · tauto
        · have := hfragmem c hc
          tauto

lemma truncated_no_space {objs : List (List (String × String))}
    {fs' : List (String × String)} {frag rest : List Char}
    (hplain : ∀ fs ∈ objs, ∀ kv ∈ fs, plainStr kv.1 = true ∧ plainStr kv.2 = true)
    (hplain' : ∀ kv ∈ fs', plainStr kv.1 = true ∧ plainStr kv.2 = true)
    (hfrag : renderObjChars fs' = frag ++ rest) :
    ∀ c ∈ truncatedArrayChars objs frag, isPySpace c = false := by
  intro c hc
  rcases mem_truncated hplain hplain' hfrag hc with rfl | h
  · rfl
  · exact structural_not_space h

lemma goodSeq_truncated {objs : List (List (String × String))}
    {fs' : List (String × String)} {frag rest : List Char}
    (hplain : ∀ fs ∈ objs, ∀ kv ∈ fs, plainStr kv.1 = true ∧ plainStr kv.2 = true)
    (hplain' : ∀ kv ∈ fs', plainStr kv.1 = true ∧ plainStr kv.2 = true)
    (hfrag : renderObjChars fs' = frag ++ rest)
    (hne : frag ≠ []) (hrest : rest ≠ []) (hobjs : objs ≠ []) :
    goodSeq (truncatedArrayChars objs frag) = true := by
  have hfraggood : goodSeq frag = true := by
    apply goodSeq_append_left (b := rest)
    rw [← hfrag]
    exact goodSeq_renderObjChars hplain'
  obtain ⟨p, hfp, -⟩ := frag_shape hfrag hne hrest
  cases objs with
  | nil => exact absurd rfl hobjs
  | cons o os =>
    show goodSeq ('[' :: (renderItems (o :: os) ++ ',' :: frag)) = true
    apply goodSeq_cons_of_ne (by decide)
    apply goodSeq_append _ (goodSeq_renderItems hplain) (',' :: frag)
    · refine goodSeq_comma_cons (Or.inr ?_) hfraggood
      rw [hfp]
      rfl
    · intro hl
      rw [renderItems_getLast (by simp)] at hl
      exact absurd hl (by decide)

/-- The strip and comma-substitution phases of `_repair_json` leave the
truncated input unchanged. -/
lemma repair_phase1_id {objs : List (List (String × String))}
    {fs' : List (String × String)} {frag rest : List Char}
    (hplain : ∀ fs ∈ objs, ∀ kv ∈ fs, plainStr kv.1 = true ∧ plainStr kv.2 = true)
    (hplain' : ∀ kv ∈ fs', plainStr kv.1 = true ∧ plainStr kv.2 = true)
    (hfrag : renderObjChars fs' = frag ++ rest)
    (hne : frag ≠ []) (hrest : rest ≠ []) (hobjs : objs ≠ []) :
    commaSub '\x7d' (commaSub ']' (rstripChars (lstripChars
      (truncatedArrayChars objs frag)))) = truncatedArrayChars objs frag := by
  rw [strip_id_of_no_space (truncated_no_space hplain hplain' hfrag)]
  rw [commaSub_eq_self (Or.inl rfl) _ (goodSeq_truncated hplain hplain' hfrag hne hrest hobjs)]
  rw [commaSub_eq_self (Or.inr rfl) _ (goodSeq_truncated hplain hplain' hfrag hne hrest hobjs)]

/-! ### The repair scan on the rendered class -/

lemma scanStep_neutral (c : Char) (hc : neutralChar c = true) {st : ScanSt}
    (hesc : st.escape_next = false) :
    scanStep st c = { st with idx := st.idx + 1 } := by
  obtain ⟨hbs, hq, hob, hcb, hobr, hcbr⟩ := of_decide_eq_true hc
  have he : ¬ (st.escape_next = true) := by rw [hesc]; exact Bool.false_ne_true
  simp only [scanStep]
  rw [if_neg he, if_neg hbs, if_neg hq]
  by_cases hs : st.in_string = true
  · rw [if_pos hs]
  · rw [if_neg hs, if_neg hob, if_neg hcb, if_neg hobr, if_neg hcbr]

lemma scanStep_quote {st : ScanSt} (hesc : st.escape_next = false) :
    scanStep st '"' = { st with in_string := !st.in_string, idx := st.idx + 1 } := by
  have he : ¬ (st.escape_next = true) := by rw [hesc]; exact Bool.false_ne_true
  simp only [scanStep]
  rw [if_neg he, if_neg (by decide : ¬ (('"' : Char) = '\\')), if_pos True.intro]

lemma scanStep_openBracket {st : ScanSt} (hesc : st.escape_next = false)
    (hstr : st.in_string = false) :
    scanStep st '[' =
      { st with bracket_count := st.bracket_count + 1, idx := st.idx + 1 } := by
  have he : ¬ (st.escape_next = true) := by rw [hesc]; exact Bool.false_ne_true
  have hs : ¬ (st.in_string = true) := by rw [hstr]; exact Bool.false_ne_true
  simp only [scanStep]
  rw [if_neg he, if_neg (by decide : ¬ (('[' : Char) = '\\')),
    if_neg (by decide : ¬ (('[' : Char) = '"')), if_neg hs, if_pos True.intro]

lemma scanStep_openBrace {st : ScanSt} (hesc : st.escape_next = false)
    (hstr : st.in_string = false) :
    scanStep st '\x7b' =
      { st with brace_count := st.brace_count + 1, idx := st.idx + 1 } := by
  have he : ¬ (st.escape_next = true) := by rw [hesc]; exact Bool.false_ne_true
  have hs : ¬ (st.in_string = true) := by rw [hstr]; exact Bool.false_ne_true
  simp only [scanStep]
  rw [if_neg he, if_neg (by decide : ¬ (('\x7b' : Char) = '\\')),
    if_neg (by decide : ¬ (('\x7b' : Char) = '"')), if_neg hs,
    if_neg (by decide : ¬ (('\x7b' : Char) = '[')),
    if_neg (by decide : ¬ (('\x7b' : Char) = ']')), if_pos True.intro]

lemma scanStep_closeBrace {st : ScanSt} (hesc : st.escape_next = false)
    (hstr : st.in_string = false) (hbr : st.brace_count = 1)
    (hbk : st.bracket_count = 1) :
    scanStep st '\x7d' =
      { st with brace_count := 0, idx := st.idx + 1, last_complete := st.idx + 1 } := by
  have he : ¬ (st.escape_next = true) := by rw [hesc]; exact Bool.false_ne_true
  have hs : ¬ (st.in_string = true) := by rw [hstr]; exact Bool.false_ne_true
  simp only [scanStep]
  rw [if_neg he, if_neg (by decide : ¬ (('\x7d' : Char) = '\\')),
    if_neg (by decide : ¬ (('\x7d' : Char) = '"')), if_neg hs,
    if_neg (by decide : ¬ (('\x7d' : Char) = '[')),
    if_neg (by decide : ¬ (('\x7d' : Char) = ']')),
    if_neg (by decide : ¬ (('\x7d' : Char) = '\x7b')), if_pos True.intro,
    if_pos ⟨by omega, hbk⟩, hbr]
  norm_num

/-- Neutral characters advance only the index. -/
lemma scan_neutral_run {l : List Char} (hl : ∀ c ∈ l, neutralChar c = true)
    (st : ScanSt) (hesc : st.escape_next = false) :
    l.foldl scanStep st = { st with idx := st.idx + l.length } := by
  induction l generalizing st with
  | nil => rfl
  | cons c cs ih =>
    rw [List.foldl_cons, scanStep_neutral c (hl c (List.mem_cons_self c cs)) hesc,
      ih (fun x hx => hl x (List.mem_cons_of_mem c hx)) { st with idx := st.idx + 1 } hesc]
    simp only [List.length_cons, ScanSt.mk.injEq, eq_self_iff_true, true_and, and_true]
    omega

/-- Quotes, colons, commas and plain characters leave the counters and the
recorded index untouched: only the index advances and the string flag may
change. -/
lemma scan_stringish_run {l : List Char}
    (hl : ∀ c ∈ l, c = '"' ∨ c = ':' ∨ c = ',' ∨ plainChar c = true)
    (bk br : ℤ) (instr : Bool) (i lc : ℕ) :
    ∃ b : Bool, l.foldl scanStep ⟨bk, br, instr, false, i, lc⟩ =
      ⟨bk, br, b, false, i + l.length, lc⟩ := by
  induction l generalizing instr i with
  | nil => exact ⟨instr, rfl⟩
  | cons c cs ih =>
    have hstep : ∃ b2 : Bool, scanStep ⟨bk, br, instr, false, i, lc⟩ c =
        ⟨bk, br, b2, false, i + 1, lc⟩ := by
      rcases hl c (List.mem_cons_self c cs) with rfl | rfl | rfl | hp
      · exact ⟨!instr, by rw [scanStep_quote rfl]⟩
      · exact ⟨instr, by rw [scanStep_neutral ':' (by decide) rfl]⟩
      · exact ⟨instr, by rw [scanStep_neutral ',' (by decide) rfl]⟩
      · exact ⟨instr, by rw [scanStep_neutral c (plainChar_neutral hp) rfl]⟩
    obtain ⟨b2, hb2⟩ := hstep
    obtain ⟨b, hb⟩ := ih (fun x hx => hl x (List.mem_cons_of_mem c hx)) b2 (i + 1)
    refine ⟨b, ?_⟩
    rw [List.foldl_cons, hb2, hb]
    simp only [List.length_cons, ScanSt.mk.injEq, eq_self_iff_true, true_and, and_true]
    omega

lemma renderField_length (kv : String × String) :
    (renderField kv).length = kv.1.data.length + kv.2.data.length + 5 := by
  simp only [renderField, List.length_cons, List.length_append, List.length_singleton,
    List.length_nil]
  omega

/-- Scanning one rendered field advances the index by its length and
changes nothing else. -/
lemma scan_renderField {kv : String × String} (hk : plainStr kv.1 = true)
    (hv : plainStr kv.2 = true) (bk br : ℤ) (i lc : ℕ) :
    (renderField kv).foldl scanStep ⟨bk, br, false, false, i, lc⟩ =
      ⟨bk, br, false, false, i + (renderField kv).length, lc⟩ := by
  have hk' := List.all_eq_true.mp hk
  have hv' := List.all_eq_true.mp hv
  rw [renderField, List.foldl_cons, scanStep_quote rfl]
  show List.foldl scanStep ⟨bk, br, true, false, i + 1, lc⟩
      (kv.1.data ++ '"' :: ':' :: '"' :: (kv.2.data ++ ['"'])) = _
  rw [List.foldl_append,
    scan_neutral_run (fun c hc => plainChar_neutral (hk' c hc)) _ rfl]
  show List.foldl scanStep ⟨bk, br, true, false, i + 1 + kv.1.data.length, lc⟩
      ('"' :: ':' :: '"' :: (kv.2.data ++ ['"'])) = _
  rw [List.foldl_cons, scanStep_quote rfl]
  show List.foldl scanStep ⟨bk, br, false, false, i + 1 + kv.1.data.length + 1, lc⟩
      (':' :: '"' :: (kv.2.data ++ ['"'])) = _
  rw [List.foldl_cons, scanStep_neutral ':' (by decide) rfl]
  show List.foldl scanStep ⟨bk, br, false, false, i + 1 + kv.1.data.length + 1 + 1, lc⟩
      ('"' :: (kv.2.data ++ ['"'])) = _
  rw [List.foldl_cons, scanStep_quote rfl]
  show List.foldl scanStep
      ⟨bk, br, true, false, i + 1 + kv.1.data.length + 1 + 1 + 1, lc⟩
      (kv.2.data ++ ['"']) = _
  rw [List.foldl_append,
    scan_neutral_run (fun c hc => plainChar_neutral (hv' c hc)) _ rfl]
  show List.foldl scanStep
      ⟨bk, br, true, false, i + 1 + kv.1.data.length + 1 + 1 + 1 + kv.2.data.length, lc⟩
      ['"'] = _
  rw [List.foldl_cons, scanStep_quote rfl, List.foldl_nil]
  show (⟨bk, br, false, false,
      i + 1 + kv.1.data.length + 1 + 1 + 1 + kv.2.data.length + 1, lc⟩ : ScanSt) = _
  simp only [List.length_cons, List.length_append, List.length_singleton, List.length_nil,
    ScanSt.mk.injEq, eq_self_iff_true, true_and, and_true]
  omega

/-- Scanning a rendered field list advances the index by its length and
changes nothing else. -/
lemma scan_renderFieldsBody {fs : List (String × String)}
    (hp : ∀ kv ∈ fs, plainStr kv.1 = true ∧ plainStr kv.2 = true)
    (bk br : ℤ) (i lc : ℕ) :
    (renderFieldsBody fs).foldl scanStep ⟨bk, br, false, false, i, lc⟩ =
      ⟨bk, br, false, false, i + (renderFieldsBody fs).length, lc⟩ := by
  induction fs generalizing i with
  | nil => rfl
  | cons kv rest ih =>
    cases rest with
    | nil =>
      show (renderField kv).foldl scanStep _ = _
      rw [scan_renderField (hp kv (List.mem_cons_self kv [])).1
        (hp kv (List.mem_cons_self kv [])).2 bk br i lc]
      rfl
    | cons kv2 rest2 =>
      show ((renderField kv ++ ',' :: renderFieldsBody (kv2 :: rest2)).foldl scanStep
        ⟨bk, br, false, false, i, lc⟩) = _
      rw [List.foldl_append,
        scan_renderField (hp kv (List.mem_cons_self kv (kv2 :: rest2))).1
          (hp kv (List.mem_cons_self kv (kv2 :: rest2))).2 bk br i lc,
        List.foldl_cons, scanStep_neutral ',' (by decide) rfl]
      show List.foldl scanStep
          ⟨bk, br, false, false, i + (renderField kv).length + 1, lc⟩
          (renderFieldsBody (kv2 :: rest2)) = _
      rw [ih (fun x hx => hp x (List.mem_cons_of_mem kv hx))
        (i + (renderField kv).length + 1)]
      have hlen : renderFieldsBody (kv :: kv2 :: rest2) =
          renderField kv ++ ',' :: renderFieldsBody (kv2 :: rest2) := rfl
      simp only [hlen, List.length_append, List.length_cons, ScanSt.mk.injEq,
        eq_self_iff_true, true_and, and_true]
      omega

/-- Scanning a rendered object from bracket depth 1 and brace depth 0
advances the index by its length and records the position after the
closing brace as the last complete element. -/
lemma scan_renderObjChars {fs : List (String × String)}
    (hp : ∀ kv ∈ fs, plainStr kv.1 = true ∧ plainStr kv.2 = true) (i lc : ℕ) :
    (renderObjChars fs).foldl scanStep ⟨1, 0, false, false, i, lc⟩ =
      ⟨1, 0, false, false, i + (renderObjChars fs).length,
        i + (renderObjChars fs).length⟩ := by
  rw [renderObjChars, List.foldl_cons, scanStep_openBrace rfl rfl]
  show List.foldl scanStep ⟨1, 1, false, false, i + 1, lc⟩
      (renderFieldsBody fs ++ ['\x7d']) = _
  rw [List.foldl_append, scan_renderFieldsBody hp 1 1 (i + 1) lc]
  show List.foldl scanStep
      ⟨1, 1, false, false, i + 1 + (renderFieldsBody fs).length, lc⟩ ['\x7d'] = _
  rw [List.foldl_cons, scanStep_closeBrace rfl rfl rfl rfl, List.foldl_nil]
  show (⟨1, 0, false, false, i + 1 + (renderFieldsBody fs).length + 1,
      i + 1 + (renderFieldsBody fs).length + 1⟩ : ScanSt) = _
  simp only [List.length_cons, List.length_append, List.length_singleton, List.length_nil,
    ScanSt.mk.injEq, eq_self_iff_true, true_and, and_true]
  omega

/-- Scanning a rendered item list from bracket depth 1 advances the index
by its length and records its end as the last complete element. -/
lemma scan_renderItems {objs : List (List (String × String))}
    (hp : ∀ fs ∈ objs, ∀ kv ∈ fs, plainStr kv.1 = true ∧ plainStr kv.2 = true)
    (hne : objs ≠ []) (i lc : ℕ) :
    (renderItems objs).foldl scanStep ⟨1, 0, false, false, i, lc⟩ =
      ⟨1, 0, false, false, i + (renderItems objs).length,
        i + (renderItems objs).length⟩ := by
  induction objs generalizing i lc with
  | nil => exact absurd rfl hne
  | cons o os ih =>
    cases os with
    | nil =>
      show (renderObjChars o).foldl scanStep _ = _
      rw [scan_renderObjChars (hp o (List.mem_cons_self o [])) i lc]
      rfl
    | cons o2 os2 =>
      show ((renderObjChars o ++ ',' :: renderItems (o2 :: os2)).foldl scanStep
        ⟨1, 0, false, false, i, lc⟩) = _
      rw [List.foldl_append,
        scan_renderObjChars (hp o (List.mem_cons_self o (o2 :: os2))) i lc,
        List.foldl_cons, scanStep_neutral ',' (by decide) rfl]
      show List.foldl scanStep
          ⟨1, 0, false, false, i + (renderObjChars o).length + 1,
            i + (renderObjChars o).length⟩ (renderItems (o2 :: os2)) = _
      rw [ih (fun x hx => hp x (List.mem_cons_of_mem o hx)) (List.cons_ne_nil o2 os2)
        (i + (renderObjChars o).length + 1) (i + (renderObjChars o).length)]
      have hlen : renderItems (o :: o2 :: os2) =
          renderObjChars o ++ ',' :: renderItems (o2 :: os2) := rfl
      simp only [hlen, List.length_append, List.length_cons, ScanSt.mk.injEq,
        eq_self_iff_true, true_and, and_true]
      omega

/-! ### The last tail phases of the repair on the rendered class -/

lemma getLast?_cons_of_ne_nil (c : Char) {l : List Char} (h : l ≠ []) :
    (c :: l).getLast? = l.getLast? := by
  cases l with
  | nil => exact absurd rfl h
  | cons d t => exact List.getLast?_cons_cons

lemma ne_nil_of_head?_eq_some {l : List Char} {c : Char} (h : l.head? = some c) :
    l ≠ [] := by
  cases l with
  | nil => exact absurd h (by simp)
  | cons d t => exact List.cons_ne_nil d t

/-- `endswith` against a single closing character is decided by the last
character. -/
lemma endsWithChars_singleton {l : List Char} {c : Char} (d : Char)
    (h : l.getLast? = some c) : endsWithChars l [d] = (c == d) := by
  obtain ⟨t, ht⟩ : ∃ t, l.reverse = c :: t := by
    have h2 : l.reverse.head? = some c := by rw [List.head?_reverse]; exact h
    cases hr : l.reverse with
    | nil => rw [hr] at h2; exact absurd h2 (by simp)
    | cons x xs =>
      rw [hr] at h2
      simp only [List.head?_cons, Option.some.injEq] at h2
      exact ⟨xs, by rw [h2]⟩
  rw [endsWithChars, ht]
  show (c == d && startsWithChars t []) = (c == d)
  rw [show startsWithChars t [] = true from by cases t <;> rfl, Bool.and_true]

/-- `rstrip(",")` is the identity when the text does not end in a comma. -/
lemma rstripComma_eq_self {l : List Char} {c : Char} (h : l.getLast? = some c)
    (hne : (c == ',') = false) : rstripComma l = l := by
  obtain ⟨t, ht⟩ : ∃ t, l.reverse = c :: t := by
    have h2 : l.reverse.head? = some c := by rw [List.head?_reverse]; exact h
    cases hr : l.reverse with
    | nil => rw [hr] at h2; exact absurd h2 (by simp)
    | cons x xs =>
      rw [hr] at h2
      simp only [List.head?_cons, Option.some.injEq] at h2
      exact ⟨xs, by rw [h2]⟩
  rw [rstripComma, ht, List.dropWhile_cons, hne, if_neg Bool.false_ne_true, ← ht,
    List.reverse_reverse]

/-- `_repair_json` on a truncated array of plainly-rendered objects keeps
exactly the fully closed objects and closes the array after them. -/
lemma repairChars_truncated {objs : List (List (String × String))}
    {fs' : List (String × String)} {frag rest : List Char}
    (hplain : ∀ fs ∈ objs, ∀ kv ∈ fs, plainStr kv.1 = true ∧ plainStr kv.2 = true)
    (hplain' : ∀ kv ∈ fs', plainStr kv.1 = true ∧ plainStr kv.2 = true)
    (hfrag : renderObjChars fs' = frag ++ rest)
    (hne : frag ≠ []) (hrest : rest ≠ []) (hobjs : objs ≠ []) :
    repairChars (truncatedArrayChars objs frag) = renderArrChars objs := by
  obtain ⟨p, hfp, t0, hpt⟩ := frag_shape hfrag hne hrest
  have hid := repair_phase1_id hplain hplain' hfrag hne hrest hobjs
  have hstringish : ∀ c ∈ p, c = '"' ∨ c = ':' ∨ c = ',' ∨ plainChar c = true := by
    intro c hc
    apply mem_renderFieldsBody hplain'
    rw [← hpt]
    exact List.mem_append.mpr (Or.inl hc)
  cases objs with
  | nil => exact absurd rfl hobjs
  | cons o os =>
    have hX : truncatedArrayChars (o :: os) frag =
        '[' :: (renderItems (o :: os) ++ ',' :: frag) := rfl
    have hscan : ∃ b : Bool, scanChars (truncatedArrayChars (o :: os) frag) =
        ⟨1, 1, b, false, 1 + (renderItems (o :: os)).length + 1 + 1 + p.length,
          1 + (renderItems (o :: os)).length⟩ := by
      rw [hX, hfp, scanChars]
      rw [List.foldl_cons, scanStep_openBracket rfl rfl]
      show ∃ b : Bool, List.foldl scanStep ⟨1, 0, false, false, 1, 0⟩
          (renderItems (o :: os) ++ ',' :: '\x7b' :: p) = _
      rw [List.foldl_append, scan_renderItems hplain (List.cons_ne_nil o os) 1 0]
      show ∃ b : Bool, List.foldl scanStep
          ⟨1, 0, false, false, 1 + (renderItems (o :: os)).length,
            1 + (renderItems (o :: os)).length⟩ (',' :: '\x7b' :: p) = _
      rw [List.foldl_cons, scanStep_neutral ',' (by decide) rfl]
      show ∃ b : Bool, List.foldl scanStep
          ⟨1, 0, false, false, 1 + (renderItems (o :: os)).length + 1,
            1 + (renderItems (o :: os)).length⟩ ('\x7b' :: p) = _
      rw [List.foldl_cons, scanStep_openBrace rfl rfl]
      show ∃ b : Bool, List.foldl scanStep
          ⟨1, 1, false, false, 1 + (renderItems (o :: os)).length + 1 + 1,
            1 + (renderItems (o :: os)).length⟩ p = _
      exact scan_stringish_run hstringish 1 1 false _ _
    obtain ⟨b, hb⟩ := hscan
    have hitems_ne : renderItems (o :: os) ≠ [] :=
      ne_nil_of_head?_eq_some (renderItems_head (List.cons_ne_nil o os))
    have htake : (truncatedArrayChars (o :: os) frag).take
        (1 + (renderItems (o :: os)).length) = '[' :: renderItems (o :: os) := by
      rw [hX, Nat.add_comm 1 (renderItems (o :: os)).length, List.take_succ_cons,
        List.take_left]
    have hlast : ('[' :: renderItems (o :: os)).getLast? = some '\x7d' := by
      rw [getLast?_cons_of_ne_nil '[' hitems_ne]
      exact renderItems_getLast (List.cons_ne_nil o os)
    have hstript : rstripChars ('[' :: renderItems (o :: os)) =
        '[' :: renderItems (o :: os) := by
      have hns : ∀ c ∈ ('[' :: renderItems (o :: os)), isPySpace c = false := by
        intro c hc
        rcases List.mem_cons.mp hc with rfl | hc
        · rfl
        · exact structural_not_space (mem_renderItems hplain hc)
      rw [rstripChars, all_dropWhile_id (fun c hc => hns c (List.mem_reverse.mp hc)),
        List.reverse_reverse]
    simp only [repairChars, hid, hb]
    rw [if_pos (Or.inl (by norm_num : (0 : ℤ) < 1)),
      if_pos (by omega : 0 < 1 + (renderItems (o :: os)).length),
      htake, hstript, endsWithChars_singleton ']' hlast]
    rw [if_neg (by decide : ¬ (('\x7d' == ']') = true))]
    rw [rstripComma_eq_self hlast (by decide)]
    rfl

/-! ### Parsing the rendered array -/

lemma skipWs_cons {c : Char} (hc : isJsonWs c = false) (l : List Char) :
    skipWs (c :: l) = c :: l := by
  rw [skipWs, List.dropWhile_cons, hc, if_neg Bool.false_ne_true]

lemma skipWs_quote (l : List Char) : skipWs ('"' :: l) = '"' :: l :=
  skipWs_cons (by decide) l

lemma skipWs_colon (l : List Char) : skipWs (':' :: l) = ':' :: l :=
  skipWs_cons (by decide) l

lemma skipWs_comma (l : List Char) : skipWs (',' :: l) = ',' :: l :=
  skipWs_cons (by decide) l

lemma skipWs_closeBrace (l : List Char) : skipWs ('\x7d' :: l) = '\x7d' :: l :=
  skipWs_cons (by decide) l

lemma skipWs_closeBracket (l : List Char) : skipWs (']' :: l) = ']' :: l :=
  skipWs_cons (by decide) l

lemma head?_append_cons {l m : List Char} {c : Char} (h : l.head? = some c) :
    (l ++ m).head? = some c := by
  cases l with
  | nil => exact absurd h (by simp)
  | cons d t => simpa using h

lemma eq_cons_of_head? {l : List Char} {c : Char} (h : l.head? = some c) :
    ∃ t, l = c :: t := by
  cases l with
  | nil => exact absurd h (by simp)
  | cons d t =>
    simp only [List.head?_cons, Option.some.injEq] at h
    exact ⟨t, by rw [h]⟩

lemma skipWs_of_head {l : List Char} {c : Char} (h : l.head? = some c)
    (hc : isJsonWs c = false) : skipWs l = l := by
  obtain ⟨t, rfl⟩ := eq_cons_of_head? h
  exact skipWs_cons hc t

/-- Plain string bodies decode to themselves. -/
lemma parseJString_plain {s : List Char} (hs : ∀ c ∈ s, plainChar c = true)
    (rem : List Char) : parseJString (s ++ '"' :: rem) = some (s, rem) := by
  induction s with
  | nil =>
    show parseJString ('"' :: rem) = some ([], rem)
    rw [parseJString.eq_def]
    dsimp only
    rw [if_pos rfl]
  | cons c cs ih =>
    have hc := plainChar_spec (hs c (List.mem_cons_self c cs))
    show parseJString (c :: (cs ++ '"' :: rem)) = some (c :: cs, rem)
    rw [parseJString.eq_def]
    dsimp only
    rw [if_neg hc.1, if_neg hc.2.1, if_neg (UInt32.not_lt.mpr hc.2.2.2.2.2.2.2.2),
      ih (fun x hx => hs x (List.mem_cons_of_mem c hx))]
    rfl

/-- A quoted plain string parses as one JSON string value. -/
lemma parseValue_str {v : List Char} (hv : ∀ c ∈ v, plainChar c = true)
    (rem : List Char) {f : ℕ} (hf : 1 ≤ f) :
    parseValue f ('"' :: (v ++ '"' :: rem)) = some (Json.str (String.mk v), rem) := by
  obtain ⟨f1, rfl⟩ : ∃ f1, f = f1 + 1 := ⟨f - 1, by omega⟩
  simp only [parseValue]
  rw [if_pos True.intro, parseJString_plain hv, Option.map_some']

/-- The members of a rendered object parse to the corresponding pairs. -/
lemma parseObjItems_render {fs : List (String × String)} (hfs : fs ≠ [])
    (hp : ∀ kv ∈ fs, plainStr kv.1 = true ∧ plainStr kv.2 = true)
    (rem : List Char) {f : ℕ} (hf : fs.length + 1 ≤ f) :
    parseObjItems f (renderFieldsBody fs ++ '\x7d' :: rem) =
      some (fs.map (fun kv => (kv.1, Json.str kv.2)), rem) := by
  induction fs generalizing rem f with
  | nil => exact absurd rfl hfs
  | cons kv rest ih =>
    simp only [List.length_cons] at hf
    obtain ⟨f1, rfl⟩ : ∃ f1, f = f1 + 1 := ⟨f - 1, by omega⟩
    have hf1 : 1 ≤ f1 := by omega
    have hk := List.all_eq_true.mp (hp kv (List.mem_cons_self kv rest)).1
    have hv := List.all_eq_true.mp (hp kv (List.mem_cons_self kv rest)).2
    cases rest with
    | nil =>
      show parseObjItems (f1 + 1) (renderField kv ++ '\x7d' :: rem) = _
      rw [renderField]
      simp only [List.cons_append, List.append_assoc, List.nil_append]
      simp only [parseObjItems, parseJString_plain hk, skipWs_colon, skipWs_quote,
        parseValue_str hv ('\x7d' :: rem) hf1, skipWs_closeBrace, List.map_cons,
        List.map_nil]
    | cons kv2 rest2 =>
      obtain ⟨tl, htl⟩ :=
        eq_cons_of_head? (renderFieldsBody_head (List.cons_ne_nil kv2 rest2))
      have hrec : parseObjItems f1 (renderFieldsBody (kv2 :: rest2) ++ '\x7d' :: rem) =
          some ((kv2 :: rest2).map (fun kv => (kv.1, Json.str kv.2)), rem) :=
        ih (List.cons_ne_nil kv2 rest2) (fun x hx => hp x (List.mem_cons_of_mem kv hx))
          rem (by simp only [List.length_cons] at hf ⊢; omega)
      rw [htl] at hrec
      simp only [List.cons_append] at hrec
      show parseObjItems (f1 + 1)
          ((renderField kv ++ ',' :: renderFieldsBody (kv2 :: rest2)) ++ '\x7d' :: rem) = _
      rw [renderField, htl]
      simp only [List.cons_append, List.append_assoc, List.nil_append]
      simp only [parseObjItems, parseJString_plain hk, skipWs_colon, skipWs_quote,
        parseValue_str hv (',' :: '"' :: (tl ++ '\x7d' :: rem)) hf1, skipWs_comma,
        hrec, List.map_cons]

lemma renderFieldsBody_length_ge (fs : List (String × String)) :
    fs.length ≤ (renderFieldsBody fs).length := by
  induction fs with
  | nil => simp [renderFieldsBody]
  | cons kv rest ih =>
    cases rest with
    | nil =>
      show (kv :: []).length ≤ (renderField kv).length
      rw [renderField_length]
      simp only [List.length_cons, List.length_nil]
      omega
    | cons kv2 rest2 =>
      have h : renderFieldsBody (kv :: kv2 :: rest2) =
          renderField kv ++ ',' :: renderFieldsBody (kv2 :: rest2) := rfl
      rw [h]
      simp only [List.length_append, List.length_cons, renderField_length]
      simp only [List.length_cons] at ih
      omega

/-- A rendered object parses as one JSON object value. -/
lemma parseValue_renderObj {fs : List (String × String)}
    (hp : ∀ kv ∈ fs, plainStr kv.1 = true ∧ plainStr kv.2 = true)
    (rem : List Char) {f : ℕ} (hf : fs.length + 2 ≤ f) :
    parseValue f (renderObjChars fs ++ rem) = some (objJson fs, rem) := by
  obtain ⟨f1, rfl⟩ : ∃ f1, f = f1 + 1 := ⟨f - 1, by omega⟩
  cases fs with
  | nil =>
    show parseValue (f1 + 1) ('\x7b' :: '\x7d' :: rem) = some (objJson [], rem)
    simp only [parseValue]
    rw [if_neg (by decide : ¬ (('\x7b' : Char) = '"')),
      if_neg (by decide : ¬ (('\x7b' : Char) = '[')), if_pos True.intro,
      skipWs_closeBrace]
    rfl
  | cons kv rest =>
    simp only [List.length_cons] at hf
    obtain ⟨tl, htl⟩ :=
      eq_cons_of_head? (renderFieldsBody_head (List.cons_ne_nil kv rest))
    have hrec : parseObjItems f1 (renderFieldsBody (kv :: rest) ++ '\x7d' :: rem) =
        some ((kv :: rest).map (fun kv2 => (kv2.1, Json.str kv2.2)), rem) :=
      parseObjItems_render (List.cons_ne_nil kv rest) hp rem
        (by simp only [List.length_cons]; omega)
    rw [htl] at hrec
    simp only [List.cons_append] at hrec
    show parseValue (f1 + 1)
        ('\x7b' :: ((renderFieldsBody (kv :: rest) ++ ['\x7d']) ++ rem)) = _
    rw [htl]
    simp only [List.cons_append, List.append_assoc, List.nil_append]
    simp only [parseValue]
    rw [if_neg (by decide : ¬ (('\x7b' : Char) = '"')),
      if_neg (by decide : ¬ (('\x7b' : Char) = '[')), if_pos True.intro,
      skipWs_quote]
    split
    · rename_i r2 heq
      rw [List.cons.injEq] at heq
      exact absurd heq.1 (by decide)
    · rw [hrec, Option.map_some']
      rfl

/-- A rendered item list followed by the closing bracket parses as the
array elements. -/
lemma parseArrItems_renderItems {objs : List (List (String × String))}
    (hobjs : objs ≠ [])
    (hp : ∀ fs ∈ objs, ∀ kv ∈ fs, plainStr kv.1 = true ∧ plainStr kv.2 = true)
    (rem : List Char) {f : ℕ} (hf : (renderItems objs).length + 2 ≤ f) :
    parseArrItems f (renderItems objs ++ ']' :: rem) =
      some (objs.map objJson, rem) := by
  induction objs generalizing rem f with
  | nil => exact absurd rfl hobjs
  | cons o os ih =>
    obtain ⟨f1, rfl⟩ : ∃ f1, f = f1 + 1 := ⟨f - 1, by omega⟩
    have hlen2 : o.length ≤ (renderFieldsBody o).length := renderFieldsBody_length_ge o
    have hlenobj : (renderObjChars o).length = (renderFieldsBody o).length + 2 := by
      simp only [renderObjChars, List.length_cons, List.length_append, List.length_nil]
    cases os with
    | nil =>
      have hri : renderItems [o] = renderObjChars o := rfl
      rw [hri] at hf
      show parseArrItems (f1 + 1) (renderObjChars o ++ ']' :: rem) = some ([objJson o], rem)
      simp only [parseArrItems,
        parseValue_renderObj (hp o (List.mem_cons_self o [])) (']' :: rem)
          (by omega : o.length + 2 ≤ f1),
        skipWs_closeBracket]
    | cons o2 os2 =>
      have hri : renderItems (o :: o2 :: os2) =
          renderObjChars o ++ ',' :: renderItems (o2 :: os2) := rfl
      rw [hri] at hf
      simp only [List.length_append, List.length_cons] at hf
      show parseArrItems (f1 + 1)
          ((renderObjChars o ++ ',' :: renderItems (o2 :: os2)) ++ ']' :: rem) = _
      simp only [List.cons_append, List.append_assoc]
      have hrec : parseArrItems f1 (renderItems (o2 :: os2) ++ ']' :: rem) =
          some ((o2 :: os2).map objJson, rem) :=
        ih (List.cons_ne_nil o2 os2) (fun x hx => hp x (List.mem_cons_of_mem o hx))
          rem (by omega)
      have hsk : skipWs (renderItems (o2 :: os2) ++ ']' :: rem) =
          renderItems (o2 :: os2) ++ ']' :: rem :=
        skipWs_of_head (head?_append_cons (renderItems_head (List.cons_ne_nil o2 os2)))
          (by decide)
      simp only [parseArrItems,
        parseValue_renderObj (hp o (List.mem_cons_self o (o2 :: os2)))
          (',' :: (renderItems (o2 :: os2) ++ ']' :: rem)) (by omega : o.length + 2 ≤ f1),
        skipWs_comma, hsk, hrec, List.map_cons]

/-- A rendered array value parses to exactly its objects. -/
lemma parseValue_renderArr {objs : List (List (String × String))} (hobjs : objs ≠ [])
    (hp : ∀ fs ∈ objs, ∀ kv ∈ fs, plainStr kv.1 = true ∧ plainStr kv.2 = true)
    (rem : List Char) {f : ℕ} (hf : (renderItems objs).length + 3 ≤ f) :
    parseValue f ('[' :: (renderItems objs ++ ']' :: rem)) =
      some (Json.arr (objs.map objJson), rem) := by
  obtain ⟨f1, rfl⟩ : ∃ f1, f = f1 + 1 := ⟨f - 1, by omega⟩
  obtain ⟨tl, htl⟩ := eq_cons_of_head? (renderItems_head hobjs)
  have hsk : skipWs (renderItems objs ++ ']' :: rem) = renderItems objs ++ ']' :: rem :=
    skipWs_of_head (head?_append_cons (renderItems_head hobjs)) (by decide)
  have harr : parseArrItems f1 (renderItems objs ++ ']' :: rem) =
      some (objs.map objJson, rem) := parseArrItems_renderItems hobjs hp rem (by omega)
  simp only [parseValue]
  rw [if_neg (by decide : ¬ (('[' : Char) = '"')), if_pos True.intro, hsk, htl]
  simp only [List.cons_append]
  split
  · rename_i r2 heq
    rw [List.cons.injEq] at heq
    exact absurd heq.1 (by decide)
  · rw [← List.cons_append, ← htl, harr, Option.map_some']

/-- A complete rendered array parses to exactly its objects. -/
lemma jsonParse_renderArr {objs : List (List (String × String))} (hobjs : objs ≠ [])
    (hp : ∀ fs ∈ objs, ∀ kv ∈ fs, plainStr kv.1 = true ∧ plainStr kv.2 = true) :
    jsonParse (String.mk (renderArrChars objs)) = some (Json.arr (objs.map objJson)) := by
  simp only [jsonParse]
  rw [show renderArrChars objs = '[' :: (renderItems objs ++ ']' :: []) from rfl]
  rw [skipWs_cons (by decide : isJsonWs '[' = false)]
  rw [parseValue_renderArr hobjs hp [] (by
    simp only [List.length_cons, List.length_append, List.length_nil]
    omega)]
  rfl

set_option maxHeartbeats 4000000 in
set_option maxRecDepth 200000 in
/-- C4 counterexample: the repair does not handle every truncated array.
First, on `[\x7b"question":"a` — an array truncated inside its first
object, with zero fully closed objects — `_repair_json` returns its input
unchanged (`last_complete_idx` is never set), and that text does not parse
as JSON at all, although the claim promises a parseable array (here the
empty one).  Second, on `[\x7b"a":"x,]"\x7d,\x7b` the trailing-comma regex
`re.sub(",\s*]", "]")` rewrites the `,]` INSIDE the string literal (the
regex pass, unlike the scan, is not string-aware), so the repaired text
parses to an object whose value is `x]` — not the object
`\x7b"a":"x,]"\x7d` that was fully closed before the truncation point. -/
theorem repair_json_truncated_counterexample :
    repair_json "[\x7b\"question\":\"a" = "[\x7b\"question\":\"a" ∧
    jsonParse (repair_json "[\x7b\"question\":\"a") = none ∧
    repair_json "[\x7b\"a\":\"x,]\"\x7d,\x7b" = "[\x7b\"a\":\"x]\"\x7d]" ∧
    jsonParse (repair_json "[\x7b\"a\":\"x,]\"\x7d,\x7b") =
      some (Json.arr [Json.obj [("a", Json.str "x]")]]) :=
  ⟨by with_unfolding_all rfl, by with_unfolding_all rfl,
    by with_unfolding_all rfl, by with_unfolding_all rfl⟩

/-- C4 (amended): on an array of flat string-field objects rendered
without whitespace and with plain field texts (no quotes, backslashes,
brackets, braces, commas or whitespace inside keys and values), truncated
in the middle of an object after at least one fully closed object,
`_repair_json` — strip, trailing-comma collapse, then the
character-by-character scan tracking string-literal state and
bracket/brace depth — truncates to the last structurally complete object
and closes the array, and the repaired string parses as the JSON array
containing exactly the objects fully closed before the truncation
point. -/
theorem repair_json_truncated_mid_object
    (objs : List (List (String × String))) (fs' : List (String × String))
    (frag rest : List Char)
    (hplain : ∀ fs ∈ objs, ∀ kv ∈ fs, plainStr kv.1 = true ∧ plainStr kv.2 = true)
    (hplain' : ∀ kv ∈ fs', plainStr kv.1 = true ∧ plainStr kv.2 = true)
    (hfrag : renderObjChars fs' = frag ++ rest)
    (hne : frag ≠ []) (hrest : rest ≠ []) (hobjs : objs ≠ []) :
    repair_json (String.mk (truncatedArrayChars objs frag)) =
      String.mk (renderArrChars objs) ∧
    jsonParse (repair_json (String.mk (truncatedArrayChars objs frag))) =
      some (Json.arr (objs.map objJson)) := by
  have h1 : repair_json (String.mk (truncatedArrayChars objs frag)) =
      String.mk (renderArrChars objs) := by
    rw [repair_json]
    rw [show (String.mk (truncatedArrayChars objs frag)).data =
      truncatedArrayChars objs frag from rfl]
    rw [repairChars_truncated hplain hplain' hfrag hne hrest hobjs]
  refine ⟨h1, ?_⟩
  rw [h1]
  exact jsonParse_renderArr hobjs hplain

set_option maxHeartbeats 4000000 in
set_option maxRecDepth 200000 in
/-- Witness for the amended repair claim at a concrete input: the array
`[\x7b"question":"x"\x7d,\x7b"question":"a` — one closed object followed
by a fragment of a second — repairs to `[\x7b"question":"x"\x7d]`, which
parses to exactly the closed object. -/
theorem repair_json_truncated_mid_object_witness :
    repair_json (String.mk (truncatedArrayChars [[("question", "x")]]
        "\x7b\"question\":\"a".data)) =
      String.mk (renderArrChars [[("question", "x")]]) ∧
    jsonParse (repair_json (String.mk (truncatedArrayChars [[("question", "x")]]
        "\x7b\"question\":\"a".data))) =
      some (Json.arr ([[("question", "x")]].map objJson)) :=
  repair_json_truncated_mid_object [[("question", "x")]] [("question", "ab")]
    "\x7b\"question\":\"a".data "b\"\x7d".data
    (by decide) (by decide) (by with_unfolding_all rfl)
    (by decide) (by decide) (by decide)

end AgriQA
